import Mathlib

/-!
# Band-matrix norms: `Dlangb`

A shallow embedding of `lapack/gonum/dlangb.go` and a verification of its
specification.  Go `int` values are modelled by `Int` (unbounded), slices by
`List`, and a `panic` by `Except.error`.  The floating-point operations the
routine uses (`+`, `*`, `math.Abs`, `>`, `math.IsNaN`) are collected in the
class `FloatOps`, with one instance for a linearly ordered field (no NaN) and
one for an ordered field extended by a NaN element.
-/

set_option autoImplicit false

namespace Gonum

/-! ## Data model -/

/-- Modelled from the spec: the type `lapack.MatrixNorm` and its four constants
are declared in package `lapack`, outside the source file.  The four norm kinds
are pairwise distinct; every other value of the underlying byte is `Other`. -/
inductive MatrixNorm where
  | MaxAbs
  | MaxRowSum
  | MaxColumnSum
  | Frobenius
  | Other (code : Nat)
  deriving DecidableEq

/-- The panic messages of `Dlangb`, together with the run-time panic of an
out-of-range index or slice expression. -/
inductive PanicMsg where
  | badNorm
  | nLT0
  | klLT0
  | kuLT0
  | badLdA
  | shortAB
  | shortWork
  | outOfRange
  deriving DecidableEq

/-- The floating-point operations used by `Dlangb`. -/
class FloatOps (F : Type) where
  /-- The constant `0.0`. -/
  zero : F
  /-- The constant `1.0`. -/
  one : F
  /-- Addition `x + y`. -/
  add : F → F → F
  /-- Multiplication `x * y`. -/
  mul : F → F → F
  /-- The function `math.Abs`. -/
  abs : F → F
  /-- The comparison `x > y`. -/
  gt : F → F → Bool
  /-- The test `math.IsNaN`. -/
  isNaN : F → Bool

/-- Values in a linearly ordered field: there is no NaN. -/
instance fieldOps (α : Type) [LinearOrderedField α] : FloatOps α where
  zero := 0
  one := 1
  add x y := x + y
  mul x y := x * y
  abs x := |x|
  gt x y := decide (y < x)
  isNaN _ := false

/-- An ordered field extended with a NaN element. -/
inductive NaNExt (α : Type) where
  | nan
  | val (x : α)
  deriving DecidableEq

/-- Arithmetic with NaN: every comparison with NaN is false, `|NaN| = NaN`,
and `NaN + x = x + NaN = NaN`. -/
instance nanOps (α : Type) [LinearOrderedField α] : FloatOps (NaNExt α) where
  zero := .val 0
  one := .val 1
  add
    | .val x, .val y => .val (x + y)
    | _, _ => .nan
  mul
    | .val x, .val y => .val (x * y)
    | _, _ => .nan
  abs
    | .val x => .val |x|
    | .nan => .nan
  gt
    | .val x, .val y => decide (y < x)
    | _, _ => false
  isNaN
    | .nan => true
    | .val _ => false

/-- The receiver `impl Implementation`: the routines `Dlassq` and `Dcombssq`
of the same package are declared outside the source file and are taken as
parameters, as is `math.Sqrt`.  `Dlassq` may panic. -/
structure Implementation (F : Type) where
  /-- The call `impl.Dlassq(n, x, incx, scale, sumsq)`. -/
  Dlassq : Int → List F → Int → F → F → Except PanicMsg (F × F)
  /-- The call `impl.Dcombssq(scale1, ssq1, scale2, ssq2)`. -/
  Dcombssq : F → F → F → F → F × F
  /-- The call `math.Sqrt(x)`. -/
  sqrt : F → F

/-! ## Slices -/

/-- The slice expression `s[lo:hi]`, for a slice whose capacity is its length;
it panics unless `0 ≤ lo ≤ hi ≤ len(s)`. -/
def slice {F : Type} (s : List F) (lo hi : Int) : Except PanicMsg (List F) :=
  if 0 ≤ lo ∧ lo ≤ hi ∧ hi ≤ (s.length : Int) then
    .ok ((s.drop lo.toNat).take (hi - lo).toNat)
  else .error .outOfRange

/-- The slice expression `s[lo:]`; it panics unless `0 ≤ lo ≤ len(s)`. -/
def sliceFrom {F : Type} (s : List F) (lo : Int) : Except PanicMsg (List F) :=
  if 0 ≤ lo ∧ lo ≤ (s.length : Int) then .ok (s.drop lo.toNat) else .error .outOfRange

/-- The statement `work[j] += x`; it panics unless `0 ≤ j < len(work)`. -/
def addAt {F : Type} [FloatOps F] (work : List F) (j : Int) (x : F) :
    Except PanicMsg (List F) :=
  if 0 ≤ j then
    match work[j.toNat]? with
    | some w => .ok (work.set j.toNat (FloatOps.add w x))
    | none => .error .outOfRange
  else .error .outOfRange

/-- Modelled from the spec: `f64.L1Norm` is declared in package
`internal/asm/f64`, outside the source file.  It returns the sum of the
absolute values of a contiguous sequence, by plain summation from `0`. -/
def L1Norm {F : Type} [FloatOps F] (x : List F) : F :=
  x.foldl (fun sum v => FloatOps.add sum (FloatOps.abs v)) FloatOps.zero

/-! ## The band range -/

/-- The lower bound `l := max(0, kl-i)` of the valid storage columns of row `i`. -/
def bandLower (kl i : Int) : Int := max 0 (kl - i)

/-- The upper bound `u := min(n+kl-i, ncol)` of the valid storage columns of row `i`. -/
def bandUpper (n kl ku i : Int) : Int := min (n + kl - i) (kl + 1 + ku)

/-- The logical column `j := l + jb - kl + i` of the `jb`-th entry of the slice. -/
def colIndex (l jb kl i : Int) : Int := l + jb - kl + i

/-! ## The routine -/

/-- The loop `for i := 0; i < n; i++` with loop state `σ`. -/
def forRows {σ : Type} (n : Int) (body : Int → σ → Except PanicMsg σ) (init : σ) :
    Except PanicMsg σ :=
  (List.range n.toNat).foldlM (fun s (i : Nat) => body (i : Int) s) init

/-- The update `if x > value || math.IsNaN(x) { value = x }`. -/
def updMax {F : Type} [FloatOps F] (value x : F) : F :=
  if FloatOps.gt x value || FloatOps.isNaN x then x else value

/-- The inner loop of the `MaxAbs` case over one row slice. -/
def maxAbsRow {F : Type} [FloatOps F] (value : F) (row : List F) : F :=
  row.foldl (fun value aij => updMax value (FloatOps.abs aij)) value

/-- The inner loop of the `MaxColumnSum` case over one row slice:
`for jb, aij := range row { j := l + jb - kl + i; work[j] += math.Abs(aij) }`. -/
def colSumRow {F : Type} [FloatOps F] (l kl i : Int) (row : List F) (work : List F) :
    Except PanicMsg (List F) :=
  row.enum.foldlM
    (fun work (p : Nat × F) => addAt work (colIndex l (p.1 : Int) kl i) (FloatOps.abs p.2))
    work

/-- The case `lapack.MaxAbs` of the norm switch. -/
def caseMaxAbs {F : Type} [FloatOps F] (n kl ku : Int) (ab : List F) (ldab : Int) :
    Except PanicMsg F :=
  forRows n (fun i value =>
    let l := bandLower kl i
    let u := bandUpper n kl ku i
    (slice ab (i * ldab + l) (i * ldab + u)).map (fun row => maxAbsRow value row))
    FloatOps.zero

/-- The case `lapack.MaxRowSum` of the norm switch. -/
def caseMaxRowSum {F : Type} [FloatOps F] (n kl ku : Int) (ab : List F) (ldab : Int) :
    Except PanicMsg F :=
  forRows n (fun i value =>
    let l := bandLower kl i
    let u := bandUpper n kl ku i
    (slice ab (i * ldab + l) (i * ldab + u)).map (fun row => updMax value (L1Norm row)))
    FloatOps.zero

/-- The case `lapack.MaxColumnSum` of the norm switch; `work[:n]` is zeroed,
accumulates the column sums, and is returned with the untouched rest of `work`. -/
def caseMaxColumnSum {F : Type} [FloatOps F] (n kl ku : Int) (ab : List F) (ldab : Int)
    (work : List F) : Except PanicMsg (F × List F) :=
  (slice work 0 n).bind (fun w =>
    (forRows n (fun i w =>
      let l := bandLower kl i
      let u := bandUpper n kl ku i
      (slice ab (i * ldab + l) (i * ldab + u)).bind (fun row => colSumRow l kl i row w))
      (w.map (fun _ => FloatOps.zero))).map (fun w =>
        (w.foldl updMax FloatOps.zero, w ++ work.drop n.toNat)))

/-- The case `lapack.Frobenius` of the norm switch. -/
def caseFrobenius {F : Type} [FloatOps F] (impl : Implementation F) (n kl ku : Int)
    (ab : List F) (ldab : Int) : Except PanicMsg F :=
  (forRows n (fun i (acc : F × F) =>
    let l := bandLower kl i
    let u := bandUpper n kl ku i
    let ilen := u - l
    (sliceFrom ab (i * ldab + l)).bind (fun x =>
      (impl.Dlassq ilen x 1 FloatOps.zero FloatOps.one).map (fun r =>
        impl.Dcombssq acc.1 acc.2 r.1 r.2)))
    (FloatOps.zero, FloatOps.one)).map (fun acc => FloatOps.mul acc.1 (impl.sqrt acc.2))

/-- The norm switch of `Dlangb`, entered with `value = 0`. -/
def normSwitch {F : Type} [FloatOps F] (impl : Implementation F) (norm : MatrixNorm)
    (n kl ku : Int) (ab : List F) (ldab : Int) (work : List F) :
    Except PanicMsg (F × List F) :=
  match norm with
  | .MaxAbs => (caseMaxAbs n kl ku ab ldab).map (fun value => (value, work))
  | .MaxRowSum => (caseMaxRowSum n kl ku ab ldab).map (fun value => (value, work))
  | .MaxColumnSum => caseMaxColumnSum n kl ku ab ldab work
  | .Frobenius => (caseFrobenius impl n kl ku ab ldab).map (fun value => (value, work))
  | .Other _ => .ok (FloatOps.zero, work)

/-- The routine `Dlangb`: the given norm of an `n×n` band matrix with `kl`
sub-diagonals and `ku` super-diagonals.  It returns the value together with the
final contents of `work`. -/
def Dlangb {F : Type} [FloatOps F] (impl : Implementation F) (norm : MatrixNorm)
    (n kl ku : Int) (ab : List F) (ldab : Int) (work : List F) :
    Except PanicMsg (F × List F) :=
  let ncol := kl + 1 + ku
  if norm ≠ .MaxAbs ∧ norm ≠ .MaxRowSum ∧ norm ≠ .MaxColumnSum ∧ norm ≠ .Frobenius then
    .error .badNorm
  else if n < 0 then .error .nLT0
  else if kl < 0 then .error .klLT0
  else if ku < 0 then .error .kuLT0
  else if ldab < ncol then .error .badLdA
  else if n = 0 then .ok (FloatOps.zero, work)
  else if (ab.length : Int) < (n - 1) * ldab + ncol then .error .shortAB
  else if (work.length : Int) < n ∧ norm = .MaxColumnSum then .error .shortWork
  else normSwitch impl norm n kl ku ab ldab work

/-! ## Reference models of the external primitives -/

/-- One step of the scaled sum-of-squares accumulation: `scale` is the largest
absolute value seen and `ssq` the sum of the squares of the ratios to it. -/
def lassqStep {α : Type} [LinearOrderedField α] (acc : α × α) (xi : α) : α × α :=
  let absxi := |xi|
  if 0 < absxi then
    if acc.1 < absxi then (absxi, 1 + acc.2 * (acc.1 / absxi) ^ 2)
    else (acc.1, acc.2 + (absxi / acc.1) ^ 2)
  else acc

/-- Modelled from the spec: `Dlassq` is declared outside the source file.  Given
a sequence, a stride and an existing pair `(scale, ssq)`, it returns the updated
pair representing the sum of squares of all elements, old and new; it panics
when the sequence is too short for `n` elements of stride `incx`. -/
def Dlassq {α : Type} [LinearOrderedField α] (n : Int) (x : List α) (incx : Int)
    (scale sumsq : α) : Except PanicMsg (α × α) :=
  if n < 0 ∨ incx ≤ 0 ∨ (x.length : Int) < 1 + (n - 1) * incx then .error .outOfRange
  else
    .ok ((List.range n.toNat).foldl
      (fun acc (k : Nat) => lassqStep acc (x.getD (k * incx.toNat) 0)) (scale, sumsq))

/-- Modelled from the spec: `Dcombssq` is declared outside the source file.  It
combines two scaled sums of squares: the larger scale is kept, and the other
sum of squares is rescaled by the square of the scale ratio before adding. -/
def Dcombssq {α : Type} [LinearOrderedField α] (scale1 ssq1 scale2 ssq2 : α) : α × α :=
  if scale2 ≤ scale1 then
    if scale1 ≠ 0 then (scale1, ssq1 + (scale2 / scale1) ^ 2 * ssq2)
    else (scale1, ssq1)
  else (scale2, ssq2 + (scale1 / scale2) ^ 2 * ssq1)

/-- The reference implementation of the external primitives over an ordered
field, for a given square-root function. -/
def refImpl {α : Type} [LinearOrderedField α] (sqrt : α → α) : Implementation α :=
  ⟨Dlassq, Dcombssq, sqrt⟩

/-! ## Reference notions of the specification -/

/-- The input passes validation: none of the conditions under which `Dlangb`
panics holds. -/
def Valid {F : Type} (norm : MatrixNorm) (n kl ku : Int) (ab : List F) (ldab : Int)
    (work : List F) : Prop :=
  (norm = .MaxAbs ∨ norm = .MaxRowSum ∨ norm = .MaxColumnSum ∨ norm = .Frobenius) ∧
    0 ≤ n ∧ 0 ≤ kl ∧ 0 ≤ ku ∧ kl + 1 + ku ≤ ldab ∧
    (n - 1) * ldab + (kl + 1 + ku) ≤ (ab.length : Int) ∧
    (norm = .MaxColumnSum → n ≤ (work.length : Int))

instance instDecidableValid {F : Type} (norm : MatrixNorm) (n kl ku : Int) (ab : List F)
    (ldab : Int) (work : List F) : Decidable (Valid norm n kl ku ab ldab work) :=
  inferInstanceAs (Decidable
    ((norm = .MaxAbs ∨ norm = .MaxRowSum ∨ norm = .MaxColumnSum ∨ norm = .Frobenius) ∧
      0 ≤ n ∧ 0 ≤ kl ∧ 0 ≤ ku ∧ kl + 1 + ku ≤ ldab ∧
      (n - 1) * ldab + (kl + 1 + ku) ≤ (ab.length : Int) ∧
      (norm = .MaxColumnSum → n ≤ (work.length : Int))))

/-- The element `ab[k]` of the buffer at an integer index (zero outside the buffer). -/
def elemAt {α : Type} [Zero α] (ab : List α) (k : Int) : α :=
  if 0 ≤ k then ab.getD k.toNat 0 else 0

/-- The valid entries of row `i` in storage order: the elements
`ab[i*ldab+l], …, ab[i*ldab+u-1]`. -/
def rowOf {α : Type} [Zero α] (n kl ku : Int) (ab : List α) (ldab : Int) (i : Int) :
    List α :=
  (List.range (bandUpper n kl ku i - bandLower kl i).toNat).map
    (fun (k : Nat) => elemAt ab (i * ldab + bandLower kl i + (k : Int)))

/-- The absolute row sum of row `i` of the logical band matrix: the sum of
`|ab[i*ldab + kl + j - i]|` over the columns `0 ≤ j < n` with `i-kl ≤ j ≤ i+ku`. -/
def rowSum {α : Type} [LinearOrderedField α] (n kl ku : Int) (ab : List α) (ldab : Int)
    (i : Int) : α :=
  ∑ j in (Finset.Ico (0 : Int) n).filter (fun j => i - kl ≤ j ∧ j ≤ i + ku),
    |elemAt ab (i * ldab + kl + j - i)|

/-- The absolute column sum of column `j` of the logical band matrix: the sum of
`|ab[i*ldab + kl + j - i]|` over the rows `0 ≤ i < n` with `i-kl ≤ j ≤ i+ku`. -/
def colSum {α : Type} [LinearOrderedField α] (n kl ku : Int) (ab : List α) (ldab : Int)
    (j : Int) : α :=
  ∑ i in (Finset.Ico (0 : Int) n).filter (fun i => i - kl ≤ j ∧ j ≤ i + ku),
    |elemAt ab (i * ldab + kl + j - i)|

/-- The sum of the squares of the band entries: over every row `0 ≤ i < n` and
every storage column `max(0, kl-i) ≤ c < min(n+kl-i, kl+1+ku)`. -/
def bandSumSq {α : Type} [LinearOrderedField α] (n kl ku : Int) (ab : List α) (ldab : Int) :
    α :=
  ∑ i in Finset.Ico (0 : Int) n,
    ∑ c in Finset.Ico (max 0 (kl - i)) (min (n + kl - i) (kl + 1 + ku)),
      elemAt ab (i * ldab + c) ^ 2

/-- The scaled sum-of-squares contract of `Dlassq` at unit stride: on a sequence
holding at least `n ≥ 0` elements and a pair with `scale ≥ 0` it returns a pair
`(scl, smsq)` with `scl ≥ 0` and `scl² * smsq = scale² * sumsq + x[0]² + … + x[n-1]²`. -/
def DlassqContract {α : Type} [LinearOrderedField α] (impl : Implementation α) : Prop :=
  ∀ (n : Int) (x : List α) (scale sumsq : α), 0 ≤ n → n ≤ (x.length : Int) → 0 ≤ scale →
    ∃ scl smsq, impl.Dlassq n x 1 scale sumsq = .ok (scl, smsq) ∧ 0 ≤ scl ∧
      scl ^ 2 * smsq = scale ^ 2 * sumsq + ((x.take n.toNat).map (fun v => v ^ 2)).sum

/-- The scaled sum-of-squares contract of `Dcombssq`: for two pairs with
non-negative scales it returns a pair `(scale, ssq)` with `scale ≥ 0` and
`scale² * ssq = scale1² * ssq1 + scale2² * ssq2`. -/
def DcombssqContract {α : Type} [LinearOrderedField α] (impl : Implementation α) : Prop :=
  ∀ (scale1 ssq1 scale2 ssq2 : α), 0 ≤ scale1 → 0 ≤ scale2 →
    0 ≤ (impl.Dcombssq scale1 ssq1 scale2 ssq2).1 ∧
      (impl.Dcombssq scale1 ssq1 scale2 ssq2).1 ^ 2 * (impl.Dcombssq scale1 ssq1 scale2 ssq2).2
        = scale1 ^ 2 * ssq1 + scale2 ^ 2 * ssq2

/-- The contract of `math.Sqrt` on non-negative arguments: the non-negative
square root. -/
def SqrtContract {α : Type} [LinearOrderedField α] (impl : Implementation α) : Prop :=
  ∀ x : α, 0 ≤ x → 0 ≤ impl.sqrt x ∧ impl.sqrt x ^ 2 = x

/-- The routine `Dlassq` is defined on its domain at unit stride: it does not
panic on a sequence holding at least `n ≥ 0` elements. -/
def DlassqDefined {F : Type} (impl : Implementation F) : Prop :=
  ∀ (n : Int) (x : List F) (scale sumsq : F), 0 ≤ n → n ≤ (x.length : Int) →
    ∃ r, impl.Dlassq n x 1 scale sumsq = .ok r

/-- The value `NaNExt.val 0` is the zero of the extended field. -/
instance instZeroNaNExt (α : Type) [LinearOrderedField α] : Zero (NaNExt α) := ⟨.val 0⟩

/-! ## The routine on explicit buffers -/

/-- The two buffers handed to `Dlangb`, as two distinct regions of memory: the
band storage `ab` and the workspace `work`. -/
structure Buffers (F : Type) where
  /-- The band storage buffer. -/
  ab : List F
  /-- The workspace buffer. -/
  work : List F

/-- The statement `work[j] += x` executed on the buffers, where `work` is the
local slice `work[:n]` of the workspace; it panics unless `0 ≤ j < n`. -/
def storeAdd {F : Type} [FloatOps F] (n : Int) (m : Buffers F) (j : Int) (x : F) :
    Except PanicMsg (Buffers F) :=
  if 0 ≤ j ∧ j < n then
    match m.work[j.toNat]? with
    | some w => .ok { m with work := m.work.set j.toNat (FloatOps.add w x) }
    | none => .error .outOfRange
  else .error .outOfRange

/-- The inner loop of the `MaxColumnSum` case executed on the buffers. -/
def colSumRowMem {F : Type} [FloatOps F] (n l kl i : Int) (row : List F) (m : Buffers F) :
    Except PanicMsg (Buffers F) :=
  row.enum.foldlM
    (fun m (p : Nat × F) => storeAdd n m (colIndex l (p.1 : Int) kl i) (FloatOps.abs p.2)) m

/-- The norm switch of `Dlangb` executed on the buffers: every read of `ab` and
every read or write of `work` goes through the current buffers, which are part
of the loop state.  The only assignments of the source are `work[j] = 0` and
`work[j] += math.Abs(aij)`; the callees `f64.L1Norm` and `Dlassq` take the
values of the slices they are handed. -/
def normSwitchMem {F : Type} [FloatOps F] (impl : Implementation F) (norm : MatrixNorm)
    (n kl ku : Int) (ldab : Int) (m : Buffers F) : Except PanicMsg (F × Buffers F) :=
  match norm with
  | .MaxAbs =>
    forRows n (fun i (st : F × Buffers F) =>
      let l := bandLower kl i
      let u := bandUpper n kl ku i
      (slice st.2.ab (i * ldab + l) (i * ldab + u)).map
        (fun row => (maxAbsRow st.1 row, st.2)))
      (FloatOps.zero, m)
  | .MaxRowSum =>
    forRows n (fun i (st : F × Buffers F) =>
      let l := bandLower kl i
      let u := bandUpper n kl ku i
      (slice st.2.ab (i * ldab + l) (i * ldab + u)).map
        (fun row => (updMax st.1 (L1Norm row), st.2)))
      (FloatOps.zero, m)
  | .MaxColumnSum =>
    (slice m.work 0 n).bind (fun _ =>
      (forRows n (fun i (m : Buffers F) =>
        let l := bandLower kl i
        let u := bandUpper n kl ku i
        (slice m.ab (i * ldab + l) (i * ldab + u)).bind
          (fun row => colSumRowMem n l kl i row m))
        { m with work := (m.work.take n.toNat).map (fun _ => FloatOps.zero) ++
            m.work.drop n.toNat }).map (fun m =>
          ((m.work.take n.toNat).foldl updMax FloatOps.zero, m)))
  | .Frobenius =>
    (forRows n (fun i (st : (F × F) × Buffers F) =>
      let l := bandLower kl i
      let u := bandUpper n kl ku i
      let ilen := u - l
      (sliceFrom st.2.ab (i * ldab + l)).bind (fun x =>
        (impl.Dlassq ilen x 1 FloatOps.zero FloatOps.one).map (fun r =>
          (impl.Dcombssq st.1.1 st.1.2 r.1 r.2, st.2))))
      ((FloatOps.zero, FloatOps.one), m)).map (fun st =>
        (FloatOps.mul st.1.1 (impl.sqrt st.1.2), st.2))
  | .Other _ => .ok (FloatOps.zero, m)

/-- The routine `Dlangb` executed on the buffers: it returns the value together
with the final contents of both buffers. -/
def DlangbMem {F : Type} [FloatOps F] (impl : Implementation F) (norm : MatrixNorm)
    (n kl ku : Int) (ldab : Int) (m : Buffers F) : Except PanicMsg (F × Buffers F) :=
  let ncol := kl + 1 + ku
  if norm ≠ .MaxAbs ∧ norm ≠ .MaxRowSum ∧ norm ≠ .MaxColumnSum ∧ norm ≠ .Frobenius then
    .error .badNorm
  else if n < 0 then .error .nLT0
  else if kl < 0 then .error .klLT0
  else if ku < 0 then .error .kuLT0
  else if ldab < ncol then .error .badLdA
  else if n = 0 then .ok (FloatOps.zero, m)
  else if (m.ab.length : Int) < (n - 1) * ldab + ncol then .error .shortAB
  else if (m.work.length : Int) < n ∧ norm = .MaxColumnSum then .error .shortWork
  else normSwitchMem impl norm n kl ku ldab m

/-! ## Loops and slices -/

theorem forRows_inv {σ : Type} (n : Int) (body : Int → σ → Except PanicMsg σ)
    (P : Nat → σ → Prop) (init : σ) (h0 : P 0 init)
    (hstep : ∀ (i : Nat) (s : σ), (i : Int) < n → P i s →
      ∃ s', body (i : Int) s = .ok s' ∧ P (i + 1) s') :
    ∃ s, forRows n body init = .ok s ∧ P n.toNat s := by
  unfold forRows
  have key : ∀ m : Nat, m ≤ n.toNat →
      ∃ s, (List.range m).foldlM (fun s (i : Nat) => body (i : Int) s) init = .ok s ∧ P m s := by
    intro m
    induction m with
    | zero => intro _; exact ⟨init, rfl, h0⟩
    | succ m ih =>
      intro hm
      obtain ⟨s, hs, hP⟩ := ih (by omega)
      obtain ⟨s', hs', hP'⟩ := hstep m s (by omega) hP
      refine ⟨s', ?_, hP'⟩
      rw [List.range_succ, List.foldlM_append, hs]
      simp only [List.foldlM_cons, List.foldlM_nil]
      show (body (m : Int) s >>= fun s' => pure s') = Except.ok s'
      rw [hs']; rfl
  exact key n.toNat le_rfl

theorem drop_take_eq_map {α : Type} (s : List α) (d : α) (a b : Nat)
    (h : a + b ≤ s.length) :
    (s.drop a).take b = (List.range b).map (fun k => s.getD (a + k) d) := by
  apply List.ext_getElem
  · simp; omega
  · intro k h1 h2
    simp only [List.length_map, List.length_range] at h2
    rw [List.getElem_take, List.getElem_drop, List.getElem_map, List.getElem_range,
      List.getD_eq_getElem]

theorem band_bounds (n kl ku ldab len i : Int) (hn : 0 ≤ i) (hi : i < n) (hkl : 0 ≤ kl)
    (hku : 0 ≤ ku) (hld : kl + 1 + ku ≤ ldab) (hlen : (n - 1) * ldab + (kl + 1 + ku) ≤ len) :
    0 ≤ bandLower kl i ∧ bandLower kl i < bandUpper n kl ku i ∧
      bandUpper n kl ku i ≤ kl + 1 + ku ∧ 0 ≤ i * ldab ∧
      i * ldab + bandUpper n kl ku i ≤ len := by
  have h1 : i * ldab ≤ (n - 1) * ldab :=
    mul_le_mul_of_nonneg_right (by omega) (by omega)
  have h2 : 0 ≤ i * ldab := mul_nonneg hn (by omega)
  unfold bandLower bandUpper
  refine ⟨?_, ?_, ?_, h2, ?_⟩ <;> omega

theorem slice_band {α : Type} [Zero α] (n kl ku : Int) (ab : List α) (ldab i : Int)
    (hn : 0 ≤ i) (hi : i < n) (hkl : 0 ≤ kl) (hku : 0 ≤ ku) (hld : kl + 1 + ku ≤ ldab)
    (hlen : (n - 1) * ldab + (kl + 1 + ku) ≤ (ab.length : Int)) :
    slice ab (i * ldab + bandLower kl i) (i * ldab + bandUpper n kl ku i) =
      .ok (rowOf n kl ku ab ldab i) := by
  obtain ⟨h1, h2, h3, h4, h5⟩ := band_bounds n kl ku ldab _ i hn hi hkl hku hld hlen
  unfold slice
  rw [if_pos ⟨by omega, by omega, h5⟩]
  congr 1
  rw [drop_take_eq_map ab 0 _ _ (by omega)]
  unfold rowOf
  have e : (i * ldab + bandUpper n kl ku i - (i * ldab + bandLower kl i)).toNat =
      (bandUpper n kl ku i - bandLower kl i).toNat := by congr 1; ring
  rw [e]
  apply List.map_congr_left
  intro k _
  unfold elemAt
  rw [if_pos (by omega)]
  congr 1
  omega

theorem Dlangb_of_valid {F : Type} [FloatOps F] (impl : Implementation F)
    (norm : MatrixNorm) (n kl ku : Int) (ab : List F) (ldab : Int) (work : List F)
    (hv : Valid norm n kl ku ab ldab work) (hn : 0 < n) :
    Dlangb impl norm n kl ku ab ldab work = normSwitch impl norm n kl ku ab ldab work := by
  obtain ⟨h1, h2, h3, h4, h5, h6, h7⟩ := hv
  unfold Dlangb
  simp only []
  rw [if_neg (by rcases h1 with h | h | h | h <;> simp [h]), if_neg (by omega),
    if_neg (by omega), if_neg (by omega), if_neg (by omega), if_neg (by omega),
    if_neg (by omega), if_neg (by rintro ⟨a, b⟩; have := h7 b; omega)]

theorem updMax_field {α : Type} [LinearOrderedField α] (v x : α) : updMax v x = max v x := by
  unfold updMax
  show (if (decide (v < x) || false) = true then x else v) = max v x
  by_cases h : v < x
  · simp [h, max_eq_right h.le]
  · simp [h, max_eq_left (not_lt.mp h)]

theorem mem_rowOf {α : Type} [Zero α] (n kl ku : Int) (ab : List α) (ldab i : Int) (x : α) :
    x ∈ rowOf n kl ku ab ldab i ↔
      ∃ c, bandLower kl i ≤ c ∧ c < bandUpper n kl ku i ∧ x = elemAt ab (i * ldab + c) := by
  unfold rowOf
  simp only [List.mem_map, List.mem_range]
  constructor
  · rintro ⟨k, hk, rfl⟩
    exact ⟨bandLower kl i + k, by omega, by omega, by rw [add_assoc]⟩
  · rintro ⟨c, h1, h2, rfl⟩
    refine ⟨(c - bandLower kl i).toNat, by omega, ?_⟩
    congr 1
    omega

theorem maxAbsRow_spec {α : Type} [LinearOrderedField α] (row : List α) (v : α) :
    v ≤ maxAbsRow v row ∧ (∀ x ∈ row, |x| ≤ maxAbsRow v row) ∧
      (maxAbsRow v row = v ∨ ∃ x ∈ row, maxAbsRow v row = |x|) := by
  induction row generalizing v with
  | nil => simp [maxAbsRow]
  | cons a t ih =>
    have e : maxAbsRow v (a :: t) = maxAbsRow (max v |a|) t := by
      simp only [maxAbsRow, List.foldl_cons, updMax_field]
      rfl
    rw [e]
    obtain ⟨h1, h2, h3⟩ := ih (max v |a|)
    refine ⟨le_trans (le_max_left _ _) h1, ?_, ?_⟩
    · intro x hx
      rcases List.mem_cons.mp hx with rfl | hx
      · exact le_trans (le_max_right _ _) h1
      · exact h2 x hx
    · rcases h3 with h3 | ⟨x, hx, h3⟩
      · rcases max_choice v |a| with h | h
        · left; rw [h3, h]
        · right; exact ⟨a, List.mem_cons_self _ _, by rw [h3, h]⟩
      · right; exact ⟨x, List.mem_cons_of_mem _ hx, h3⟩

theorem caseMaxAbs_spec {α : Type} [LinearOrderedField α] (n kl ku : Int) (ab : List α)
    (ldab : Int) (hn : 0 < n) (hkl : 0 ≤ kl) (hku : 0 ≤ ku) (hld : kl + 1 + ku ≤ ldab)
    (hlen : (n - 1) * ldab + (kl + 1 + ku) ≤ (ab.length : Int)) :
    ∃ v, caseMaxAbs n kl ku ab ldab = .ok v ∧
      (∀ i c, 0 ≤ i → i < n → bandLower kl i ≤ c → c < bandUpper n kl ku i →
        |elemAt ab (i * ldab + c)| ≤ v) ∧
      (∃ i c, 0 ≤ i ∧ i < n ∧ bandLower kl i ≤ c ∧ c < bandUpper n kl ku i ∧
        v = |elemAt ab (i * ldab + c)|) := by
  obtain ⟨v, hv, h0, hall, hex⟩ := forRows_inv n
    (fun i value => (slice ab (i * ldab + bandLower kl i)
      (i * ldab + bandUpper n kl ku i)).map (fun row => maxAbsRow value row))
    (fun m v => 0 ≤ v ∧
      (∀ i : Nat, i < m → ∀ x ∈ rowOf n kl ku ab ldab i, |x| ≤ v) ∧
      (v = 0 ∨ ∃ i : Nat, i < m ∧ ∃ x ∈ rowOf n kl ku ab ldab i, v = |x|))
    (0 : α) ⟨le_rfl, by intro i hi; omega, Or.inl rfl⟩
    (by
      intro i s hi ⟨h0, hall, hex⟩
      beta_reduce
      rw [slice_band n kl ku ab ldab i (by omega) hi hkl hku hld hlen]
      obtain ⟨h1, h2, h3⟩ := maxAbsRow_spec (rowOf n kl ku ab ldab i) s
      refine ⟨maxAbsRow s (rowOf n kl ku ab ldab i), rfl, le_trans h0 h1, ?_, ?_⟩
      · intro k hk x hx
        rcases Nat.lt_succ_iff_lt_or_eq.mp hk with hk | rfl
        · exact le_trans (hall k hk x hx) h1
        · exact h2 x hx
      · rcases h3 with h3 | ⟨x, hx, h3⟩
        · rcases hex with hex | ⟨k, hk, x, hx, hex⟩
          · left; rw [h3, hex]
          · right; exact ⟨k, by omega, x, hx, by rw [h3, hex]⟩
        · right; exact ⟨i, by omega, x, hx, h3⟩)
  refine ⟨v, hv, ?_, ?_⟩
  · intro i c hi0 hin hl hu
    have := hall i.toNat (by omega) (elemAt ab (i * ldab + c))
    rw [Int.toNat_of_nonneg hi0] at this
    exact this ((mem_rowOf n kl ku ab ldab i _).mpr ⟨c, hl, hu, rfl⟩)
  · rcases hex with hex | ⟨k, hk, x, hx, hex⟩
    · obtain ⟨h1, h2, h3, h4, h5⟩ :=
        band_bounds n kl ku ldab _ 0 le_rfl hn hkl hku hld hlen
      have hmem := (mem_rowOf n kl ku ab ldab ((0 : Nat) : Int)
        (elemAt ab (((0 : Nat) : Int) * ldab + bandLower kl 0))).mpr
        ⟨bandLower kl 0, le_rfl, h2, rfl⟩
      have hle := hall 0 (by omega) _ hmem
      refine ⟨0, bandLower kl 0, le_rfl, hn, le_rfl, h2, ?_⟩
      rw [hex] at hle ⊢
      simp only [Nat.cast_zero] at hle
      exact le_antisymm (abs_nonneg _) hle
    · obtain ⟨c, h1, h2, rfl⟩ := (mem_rowOf n kl ku ab ldab k x).mp hx
      exact ⟨k, c, by omega, by omega, h1, h2, hex⟩

/-! ## Sums over a row -/

theorem sum_map_range {α : Type} [AddCommMonoid α] (f : Nat → α) (m : Nat) :
    ((List.range m).map f).sum = ∑ k in Finset.range m, f k := by
  induction m with
  | zero => simp
  | succ m ih => rw [List.sum_range_succ, Finset.sum_range_succ, ih]

theorem sum_range_eq_sum_Ico {α : Type} [AddCommMonoid α] (f : Int → α) (l u : Int) :
    ∑ k in Finset.range (u - l).toNat, f (l + (k : Int)) = ∑ c in Finset.Ico l u, f c := by
  refine Finset.sum_nbij' (fun k : Nat => l + (k : Int)) (fun c : Int => (c - l).toNat)
    ?_ ?_ ?_ ?_ ?_
  · intro k hk
    simp only [Finset.mem_range] at hk
    simp only [Finset.mem_Ico]
    omega
  · intro c hc
    simp only [Finset.mem_Ico] at hc
    simp only [Finset.mem_range]
    omega
  · intro k _
    simp
  · intro c hc
    simp only [Finset.mem_Ico] at hc
    simp only []
    omega
  · intro k _
    rfl

theorem sum_rowOf {α : Type} [LinearOrderedField α] (g : α → α) (n kl ku : Int)
    (ab : List α) (ldab i : Int) :
    ((rowOf n kl ku ab ldab i).map g).sum =
      ∑ c in Finset.Ico (bandLower kl i) (bandUpper n kl ku i), g (elemAt ab (i * ldab + c)) := by
  unfold rowOf
  rw [List.map_map, sum_map_range,
    ← sum_range_eq_sum_Ico (fun c => g (elemAt ab (i * ldab + c)))]
  apply Finset.sum_congr rfl
  intro k _
  simp only [Function.comp_apply, add_assoc]

theorem L1Norm_field {α : Type} [LinearOrderedField α] (x : List α) :
    L1Norm x = (x.map (fun v => |v|)).sum := by
  have key : ∀ (l : List α) (a : α),
      l.foldl (fun sum v => FloatOps.add sum (FloatOps.abs v)) a
        = a + (l.map (fun v => |v|)).sum := by
    intro l
    induction l with
    | nil => intro a; simp
    | cons b t ih =>
      intro a
      rw [List.foldl_cons, ih, List.map_cons, List.sum_cons]
      show a + |b| + _ = _
      rw [add_assoc]
  unfold L1Norm
  rw [key]
  show (0 : α) + _ = _
  rw [zero_add]

theorem L1Norm_rowOf {α : Type} [LinearOrderedField α] (n kl ku : Int) (ab : List α)
    (ldab i : Int) :
    L1Norm (rowOf n kl ku ab ldab i) = rowSum n kl ku ab ldab i := by
  rw [L1Norm_field, sum_rowOf (fun v => |v|)]
  unfold rowSum bandLower bandUpper
  refine Finset.sum_nbij' (fun c => c - kl + i) (fun j => j + kl - i) ?_ ?_ ?_ ?_ ?_
  · intro c hc
    simp only [Finset.mem_Ico] at hc
    simp only [Finset.mem_filter, Finset.mem_Ico]
    omega
  · intro j hj
    simp only [Finset.mem_filter, Finset.mem_Ico] at hj
    simp only [Finset.mem_Ico]
    omega
  · intro c _
    simp only []
    omega
  · intro j _
    simp only []
    omega
  · intro c _
    simp only []
    congr 2
    ring

theorem rowSum_nonneg {α : Type} [LinearOrderedField α] (n kl ku : Int) (ab : List α)
    (ldab i : Int) : 0 ≤ rowSum n kl ku ab ldab i :=
  Finset.sum_nonneg (fun _ _ => abs_nonneg _)

theorem colSum_nonneg {α : Type} [LinearOrderedField α] (n kl ku : Int) (ab : List α)
    (ldab j : Int) : 0 ≤ colSum n kl ku ab ldab j :=
  Finset.sum_nonneg (fun _ _ => abs_nonneg _)

theorem caseMaxRowSum_spec {α : Type} [LinearOrderedField α] (n kl ku : Int) (ab : List α)
    (ldab : Int) (hn : 0 < n) (hkl : 0 ≤ kl) (hku : 0 ≤ ku) (hld : kl + 1 + ku ≤ ldab)
    (hlen : (n - 1) * ldab + (kl + 1 + ku) ≤ (ab.length : Int)) :
    ∃ v, caseMaxRowSum n kl ku ab ldab = .ok v ∧
      (∀ i, 0 ≤ i → i < n → rowSum n kl ku ab ldab i ≤ v) ∧
      (∃ i, 0 ≤ i ∧ i < n ∧ v = rowSum n kl ku ab ldab i) := by
  obtain ⟨v, hv, h0, hall, hex⟩ := forRows_inv n
    (fun i value => (slice ab (i * ldab + bandLower kl i)
      (i * ldab + bandUpper n kl ku i)).map (fun row => updMax value (L1Norm row)))
    (fun m v => 0 ≤ v ∧
      (∀ i : Nat, i < m → rowSum n kl ku ab ldab i ≤ v) ∧
      (v = 0 ∨ ∃ i : Nat, i < m ∧ v = rowSum n kl ku ab ldab i))
    (0 : α) ⟨le_rfl, by intro i hi; omega, Or.inl rfl⟩
    (by
      intro i s hi ⟨h0, hall, hex⟩
      beta_reduce
      rw [slice_band n kl ku ab ldab i (by omega) hi hkl hku hld hlen]
      refine ⟨max s (rowSum n kl ku ab ldab i), ?_, le_trans h0 (le_max_left _ _), ?_, ?_⟩
      · show Except.ok (updMax s (L1Norm (rowOf n kl ku ab ldab i))) = _
        rw [updMax_field, L1Norm_rowOf n kl ku ab ldab i]
      · intro k hk
        rcases Nat.lt_succ_iff_lt_or_eq.mp hk with hk | rfl
        · exact le_trans (hall k hk) (le_max_left _ _)
        · exact le_max_right _ _
      · rcases max_choice s (rowSum n kl ku ab ldab i) with h | h
        · rcases hex with hex | ⟨k, hk, hex⟩
          · left; rw [h, hex]
          · right; exact ⟨k, by omega, by rw [h, hex]⟩
        · right; exact ⟨i, by omega, h⟩)
  refine ⟨v, hv, ?_, ?_⟩
  · intro i hi0 hin
    have := hall i.toNat (by omega)
    rwa [Int.toNat_of_nonneg hi0] at this
  · rcases hex with hex | ⟨k, hk, hex⟩
    · have hle := hall 0 (by omega)
      refine ⟨0, le_rfl, hn, ?_⟩
      rw [hex] at hle ⊢
      simp only [Nat.cast_zero] at hle
      exact le_antisymm (rowSum_nonneg _ _ _ _ _ _) hle
    · exact ⟨k, by omega, by omega, hex⟩

/-! ## The column-sum accumulation -/

theorem addAt_ok {α : Type} [LinearOrderedField α] (w : List α) (j : Int) (x : α)
    (h0 : 0 ≤ j) (h1 : j < (w.length : Int)) :
    addAt w j x = .ok (w.set j.toNat (w.getD j.toNat 0 + x)) := by
  have hlt : j.toNat < w.length := by omega
  unfold addAt
  rw [if_pos h0, List.getElem?_eq_getElem hlt, List.getD_eq_getElem w 0 hlt]
  rfl

theorem getD_set {α : Type} (w : List α) (k j : Nat) (a d : α) (hk : k < w.length) :
    (w.set k a).getD j d = if j = k then a else w.getD j d := by
  rw [List.getD_eq_getElem?_getD, List.getD_eq_getElem?_getD, List.getElem?_set]
  by_cases h : k = j
  · subst h
    simp [hk]
  · rw [if_neg h, if_neg (Ne.symm h)]

theorem colSumRow_aux {α : Type} [LinearOrderedField α] (l kl i : Int) (f : Int → α)
    (row : List α) (s : Nat) (w : List α)
    (hrow : ∀ k : Nat, k < row.length → row[k]? = some (f ((s : Int) + (k : Int))))
    (hb : 0 ≤ colIndex l (s : Int) kl i)
    (hlen : colIndex l (s : Int) kl i + (row.length : Int) ≤ (w.length : Int)) :
    ∃ w', (row.enumFrom s).foldlM
        (fun work (p : Nat × α) => addAt work (colIndex l (p.1 : Int) kl i) (FloatOps.abs p.2)) w
        = .ok w' ∧ w'.length = w.length ∧
      ∀ j : Nat, w'.getD j 0 = w.getD j 0 +
        (if colIndex l (s : Int) kl i ≤ (j : Int) ∧
            (j : Int) < colIndex l (s : Int) kl i + (row.length : Int)
          then |f ((j : Int) - (l - kl + i))| else 0) := by
  induction row generalizing s w with
  | nil =>
    refine ⟨w, rfl, rfl, ?_⟩
    intro j
    rw [if_neg (by simp only [List.length_nil, Nat.cast_zero]; omega), add_zero]
  | cons a t ih =>
    have ha : a = f (s : Int) := by
      have := hrow 0 (by simp)
      simpa using this
    have hlen' : colIndex l (s : Int) kl i + ((t.length : Int) + 1) ≤ (w.length : Int) := by
      simpa using hlen
    have hstep : colIndex l ((s + 1 : Nat) : Int) kl i = colIndex l (s : Int) kl i + 1 := by
      unfold colIndex; push_cast; ring
    obtain ⟨w', hw', hl', hget⟩ := ih (s + 1)
      (w.set (colIndex l (s : Int) kl i).toNat
        (w.getD (colIndex l (s : Int) kl i).toNat 0 + |a|))
      (by
        intro k hk
        have := hrow (k + 1) (by simp; omega)
        simp only [List.getElem?_cons_succ] at this
        rw [this]
        congr 2
        push_cast
        ring)
      (by rw [hstep]; omega)
      (by rw [hstep, List.length_set]; omega)
    refine ⟨w', ?_, by rw [hl', List.length_set], ?_⟩
    · rw [List.enumFrom_cons, List.foldlM_cons]
      show (addAt w (colIndex l (s : Int) kl i) |a| >>= _) = _
      rw [addAt_ok w _ _ hb (by omega)]
      exact hw'
    · intro j
      rw [hget j, getD_set _ _ _ _ _ (by omega), hstep]
      simp only [List.length_cons, Nat.cast_add, Nat.cast_one]
      by_cases hj : j = (colIndex l (s : Int) kl i).toNat
      · have hj' : (j : Int) = colIndex l (s : Int) kl i := by omega
        have e : (j : Int) - (l - kl + i) = (s : Int) := by
          rw [hj']; unfold colIndex; ring
        rw [if_pos hj, if_neg (by omega), if_pos (by omega), e, ha, add_zero, hj]
      · rw [if_neg hj]
        by_cases hc : colIndex l (s : Int) kl i + 1 ≤ (j : Int) ∧
            (j : Int) < colIndex l (s : Int) kl i + 1 + (t.length : Int)
        · rw [if_pos hc, if_pos (by omega)]
        · rw [if_neg hc, if_neg (by omega)]

theorem length_rowOf {α : Type} [Zero α] (n kl ku : Int) (ab : List α) (ldab i : Int) :
    (rowOf n kl ku ab ldab i).length = (bandUpper n kl ku i - bandLower kl i).toNat := by
  simp [rowOf]

theorem colSumRow_rowOf {α : Type} [LinearOrderedField α] (n kl ku : Int) (ab : List α)
    (ldab i : Int) (w : List α) (hi0 : 0 ≤ i) (hin : i < n) (hkl : 0 ≤ kl) (hku : 0 ≤ ku)
    (hw : w.length = n.toNat) :
    ∃ w', colSumRow (bandLower kl i) kl i (rowOf n kl ku ab ldab i) w = .ok w' ∧
      w'.length = n.toNat ∧
      ∀ j : Nat, (j : Int) < n → w'.getD j 0 = w.getD j 0 +
        (if i - kl ≤ (j : Int) ∧ (j : Int) ≤ i + ku
          then |elemAt ab (i * ldab + kl + (j : Int) - i)| else 0) := by
  have hL := length_rowOf n kl ku ab ldab i
  have hlu : bandLower kl i = max 0 (kl - i) := rfl
  have huu : bandUpper n kl ku i = min (n + kl - i) (kl + 1 + ku) := rfl
  obtain ⟨w', hw', hl', hget⟩ := colSumRow_aux (bandLower kl i) kl i
    (fun jb => elemAt ab (i * ldab + bandLower kl i + jb)) (rowOf n kl ku ab ldab i) 0 w
    (by
      intro k hk
      rw [hL] at hk
      unfold rowOf
      rw [List.getElem?_map, List.getElem?_range hk]
      simp)
    (by unfold colIndex; omega)
    (by unfold colIndex; omega)
  refine ⟨w', hw', by rw [hl', hw], ?_⟩
  intro j hj
  rw [hget j]
  congr 1
  unfold colIndex
  by_cases hc : i - kl ≤ (j : Int) ∧ (j : Int) ≤ i + ku
  · rw [if_pos hc, if_pos (by omega)]
    congr 2
    ring
  · rw [if_neg hc, if_neg (by omega)]

theorem sum_range_toNat {α : Type} [AddCommMonoid α] (f : Int → α) (n : Int) :
    ∑ r in Finset.range n.toNat, f (r : Int) = ∑ i in Finset.Ico (0 : Int) n, f i := by
  have := sum_range_eq_sum_Ico f 0 n
  simpa using this

theorem slice_zero {α : Type} (work : List α) (n : Int) (h0 : 0 ≤ n)
    (h : n ≤ (work.length : Int)) : slice work 0 n = .ok (work.take n.toNat) := by
  unfold slice
  rw [if_pos ⟨le_rfl, h0, h⟩]
  simp

theorem caseMaxColumnSum_spec {α : Type} [LinearOrderedField α] (n kl ku : Int)
    (ab : List α) (ldab : Int) (work : List α) (hn : 0 < n) (hkl : 0 ≤ kl) (hku : 0 ≤ ku)
    (hld : kl + 1 + ku ≤ ldab) (hlen : (n - 1) * ldab + (kl + 1 + ku) ≤ (ab.length : Int))
    (hwork : n ≤ (work.length : Int)) :
    ∃ w, caseMaxColumnSum n kl ku ab ldab work =
        .ok (w.foldl updMax 0, w ++ work.drop n.toNat) ∧
      w.length = n.toNat ∧
      ∀ j : Nat, (j : Int) < n → w.getD j 0 = colSum n kl ku ab ldab j := by
  unfold caseMaxColumnSum
  rw [slice_zero work n (by omega) hwork]
  obtain ⟨w, hw, hl, hget⟩ := forRows_inv n
    (fun i w => (slice ab (i * ldab + bandLower kl i)
      (i * ldab + bandUpper n kl ku i)).bind
        (fun row => colSumRow (bandLower kl i) kl i row w))
    (fun m w => w.length = n.toNat ∧ ∀ j : Nat, (j : Int) < n →
      w.getD j 0 = ∑ r in Finset.range m,
        (if (r : Int) - kl ≤ (j : Int) ∧ (j : Int) ≤ (r : Int) + ku
          then |elemAt ab ((r : Int) * ldab + kl + (j : Int) - (r : Int))| else 0))
    ((List.take n.toNat work).map (fun _ => (FloatOps.zero : α)))
    (by
      refine ⟨by simp; omega, ?_⟩
      intro j hj
      rw [Finset.sum_range_zero, List.getD_eq_getElem?_getD, List.getElem?_map]
      cases (List.take n.toNat work)[j]? <;> rfl)
    (by
      intro i w hi ⟨hl, hget⟩
      beta_reduce
      rw [slice_band n kl ku ab ldab i (by omega) hi hkl hku hld hlen]
      obtain ⟨w', hw', hl', hget'⟩ :=
        colSumRow_rowOf n kl ku ab ldab i w (by omega) hi hkl hku hl
      refine ⟨w', hw', hl', ?_⟩
      intro j hj
      rw [hget' j hj, hget j hj, Finset.sum_range_succ])
  refine ⟨w, ?_, hl, ?_⟩
  · show Except.map _ (forRows n _ _) = _
    rw [hw]
    rfl
  · intro j hj
    rw [hget j hj, sum_range_toNat (fun i => if i - kl ≤ (j : Int) ∧ (j : Int) ≤ i + ku
        then |elemAt ab (i * ldab + kl + (j : Int) - i)| else 0) n]
    unfold colSum
    rw [Finset.sum_filter]

theorem foldl_updMax_spec {α : Type} [LinearOrderedField α] (w : List α) (v : α) :
    v ≤ w.foldl updMax v ∧ (∀ x ∈ w, x ≤ w.foldl updMax v) ∧
      (w.foldl updMax v = v ∨ w.foldl updMax v ∈ w) := by
  induction w generalizing v with
  | nil => simp
  | cons a t ih =>
    rw [List.foldl_cons, updMax_field]
    obtain ⟨h1, h2, h3⟩ := ih (max v a)
    refine ⟨le_trans (le_max_left _ _) h1, ?_, ?_⟩
    · intro x hx
      rcases List.mem_cons.mp hx with rfl | hx
      · exact le_trans (le_max_right _ _) h1
      · exact h2 x hx
    · rcases h3 with h3 | h3
      · rcases max_choice v a with h | h
        · left; rw [h3, h]
        · right; rw [h3, h]; exact List.mem_cons_self _ _
      · right; exact List.mem_cons_of_mem _ h3

theorem maxColumnSum_value {α : Type} [LinearOrderedField α] (n kl ku : Int)
    (ab : List α) (ldab : Int) (w : List α) (hn : 0 < n) (hl : w.length = n.toNat)
    (hget : ∀ j : Nat, (j : Int) < n → w.getD j 0 = colSum n kl ku ab ldab j) :
    (∀ j, 0 ≤ j → j < n → colSum n kl ku ab ldab j ≤ w.foldl updMax 0) ∧
      (∃ j, 0 ≤ j ∧ j < n ∧ w.foldl updMax 0 = colSum n kl ku ab ldab j) := by
  obtain ⟨h1, h2, h3⟩ := foldl_updMax_spec w 0
  have hmem : ∀ j : Nat, (j : Int) < n → colSum n kl ku ab ldab j ∈ w := by
    intro j hj
    rw [← hget j hj, List.getD_eq_getElem w 0 (by omega)]
    exact List.getElem_mem _
  constructor
  · intro j hj0 hjn
    have := h2 _ (hmem j.toNat (by omega))
    rwa [Int.toNat_of_nonneg hj0] at this
  · rcases h3 with h3 | h3
    · refine ⟨0, le_rfl, hn, ?_⟩
      have := h2 _ (hmem 0 (by omega))
      rw [h3] at this ⊢
      simp only [Nat.cast_zero] at this
      exact le_antisymm (colSum_nonneg _ _ _ _ _ _) this
    · obtain ⟨k, hk, hk'⟩ := List.getElem_of_mem h3
      refine ⟨k, by omega, by omega, ?_⟩
      rw [← hget k (by omega), List.getD_eq_getElem w 0 hk, hk']

/-! ## The Frobenius accumulation -/

theorem drop_take_band {α : Type} [Zero α] (n kl ku : Int) (ab : List α) (ldab i : Int)
    (hn : 0 ≤ i) (hi : i < n) (hkl : 0 ≤ kl) (hku : 0 ≤ ku) (hld : kl + 1 + ku ≤ ldab)
    (hlen : (n - 1) * ldab + (kl + 1 + ku) ≤ (ab.length : Int)) :
    (ab.drop (i * ldab + bandLower kl i).toNat).take
      (bandUpper n kl ku i - bandLower kl i).toNat = rowOf n kl ku ab ldab i := by
  obtain ⟨h1, h2, h3, h4, h5⟩ := band_bounds n kl ku ldab _ i hn hi hkl hku hld hlen
  have h := slice_band n kl ku ab ldab i hn hi hkl hku hld hlen
  unfold slice at h
  rw [if_pos ⟨by omega, by omega, h5⟩] at h
  have e : (i * ldab + bandUpper n kl ku i - (i * ldab + bandLower kl i)).toNat =
      (bandUpper n kl ku i - bandLower kl i).toNat := by congr 1; ring
  rw [e] at h
  exact Except.ok.inj h

theorem caseFrobenius_spec {α : Type} [LinearOrderedField α] (impl : Implementation α)
    (n kl ku : Int) (ab : List α) (ldab : Int) (hkl : 0 ≤ kl) (hku : 0 ≤ ku)
    (hld : kl + 1 + ku ≤ ldab) (hlen : (n - 1) * ldab + (kl + 1 + ku) ≤ (ab.length : Int))
    (hq : DlassqContract impl) (hc : DcombssqContract impl) (hs : SqrtContract impl) :
    ∃ v, caseFrobenius impl n kl ku ab ldab = .ok v ∧ 0 ≤ v ∧
      v ^ 2 = bandSumSq n kl ku ab ldab := by
  obtain ⟨⟨s, q⟩, hw, h0, hsum⟩ := forRows_inv n
    (fun i (acc : α × α) =>
      (sliceFrom ab (i * ldab + bandLower kl i)).bind (fun x =>
        (impl.Dlassq (bandUpper n kl ku i - bandLower kl i) x 1 FloatOps.zero
          FloatOps.one).map (fun r => impl.Dcombssq acc.1 acc.2 r.1 r.2)))
    (fun m acc => 0 ≤ acc.1 ∧ acc.1 ^ 2 * acc.2 = ∑ r in Finset.range m,
      ∑ c in Finset.Ico (bandLower kl r) (bandUpper n kl ku r),
        elemAt ab ((r : Int) * ldab + c) ^ 2)
    ((FloatOps.zero : α), (FloatOps.one : α))
    (by
      refine ⟨le_rfl, ?_⟩
      show (0 : α) ^ 2 * 1 = _
      simp)
    (by
      rintro i ⟨s, q⟩ hi ⟨h0, hsum⟩
      obtain ⟨h1, h2, h3, h4, h5⟩ :=
        band_bounds n kl ku ldab _ i (by omega) hi hkl hku hld hlen
      obtain ⟨rs, rq, hr, hrs, hrq⟩ := hq (bandUpper n kl ku i - bandLower kl i)
        (ab.drop ((i : Int) * ldab + bandLower kl i).toNat) 0 1 (by omega)
        (by rw [List.length_drop]; omega) le_rfl
      rw [drop_take_band n kl ku ab ldab i (by omega) hi hkl hku hld hlen,
        sum_rowOf (fun v => v ^ 2)] at hrq
      obtain ⟨hc1, hc2⟩ := hc s q rs rq h0 hrs
      refine ⟨impl.Dcombssq s q rs rq, ?_, hc1, ?_⟩
      · beta_reduce
        unfold sliceFrom
        rw [if_pos ⟨by omega, by omega⟩]
        show ((impl.Dlassq _ _ 1 0 1).map _) = _
        rw [hr]
        rfl
      · rw [hc2, Finset.sum_range_succ, ← hsum, hrq]
        simp)
  simp only [] at h0 hsum
  have hS : 0 ≤ s ^ 2 * q := by
    rw [hsum]
    exact Finset.sum_nonneg (fun _ _ => Finset.sum_nonneg (fun _ _ => sq_nonneg _))
  have hB : s ^ 2 * q = bandSumSq n kl ku ab ldab := by
    rw [hsum, sum_range_toNat (fun i => ∑ c in Finset.Ico (bandLower kl i)
      (bandUpper n kl ku i), elemAt ab (i * ldab + c) ^ 2) n]
    rfl
  refine ⟨s * impl.sqrt q, ?_, ?_, ?_⟩
  · show Except.map _ (forRows n _ _) = _
    rw [hw]
    rfl
  · rcases eq_or_lt_of_le h0 with h | h
    · rw [← h, zero_mul]
    · have hq0 : 0 ≤ q := nonneg_of_mul_nonneg_right hS (by positivity)
      exact mul_nonneg h0 (hs q hq0).1
  · rw [← hB]
    rcases eq_or_lt_of_le h0 with h | h
    · rw [← h]; simp
    · have hq0 : 0 ≤ q := nonneg_of_mul_nonneg_right hS (by positivity)
      rw [mul_pow, (hs q hq0).2]

/-! ## The reference primitives satisfy their contracts -/

theorem lassqStep_spec {α : Type} [LinearOrderedField α] (s q xi : α) (h0 : 0 ≤ s) :
    0 ≤ (lassqStep (s, q) xi).1 ∧
      (lassqStep (s, q) xi).1 ^ 2 * (lassqStep (s, q) xi).2 = s ^ 2 * q + xi ^ 2 := by
  unfold lassqStep
  simp only []
  by_cases h : 0 < |xi|
  · rw [if_pos h]
    by_cases h' : s < |xi|
    · rw [if_pos h']
      refine ⟨h.le, ?_⟩
      simp only []
      have hne : |xi| ≠ 0 := ne_of_gt h
      have e : xi ^ 2 = |xi| ^ 2 := (sq_abs xi).symm
      rw [e]
      generalize |xi| = a at hne
      field_simp
      ring
    · rw [if_neg h']
      refine ⟨h0, ?_⟩
      simp only []
      have hs : s ≠ 0 := ne_of_gt (lt_of_lt_of_le h (not_lt.mp h'))
      have e : xi ^ 2 = |xi| ^ 2 := (sq_abs xi).symm
      rw [e]
      generalize |xi| = a
      field_simp
      ring
  · rw [if_neg h]
    have hx : xi = 0 := by
      have := le_antisymm (not_lt.mp h) (abs_nonneg xi)
      exact abs_eq_zero.mp this
    refine ⟨h0, ?_⟩
    simp [hx]

theorem refDlassq_contract {α : Type} [LinearOrderedField α] (sqrt : α → α) :
    DlassqContract (refImpl sqrt) := by
  intro n x scale sumsq hn hlen hscale
  have key : ∀ m : Nat, m ≤ x.length →
      0 ≤ ((List.range m).foldl
        (fun acc (k : Nat) => lassqStep acc (x.getD (k * (1 : Int).toNat) 0))
          (scale, sumsq)).1 ∧
      ((List.range m).foldl
        (fun acc (k : Nat) => lassqStep acc (x.getD (k * (1 : Int).toNat) 0))
          (scale, sumsq)).1 ^ 2 *
      ((List.range m).foldl
        (fun acc (k : Nat) => lassqStep acc (x.getD (k * (1 : Int).toNat) 0))
          (scale, sumsq)).2
        = scale ^ 2 * sumsq + ((x.take m).map (fun v => v ^ 2)).sum := by
    intro m
    induction m with
    | zero => intro _; simp [hscale]
    | succ m ih =>
      intro hm
      obtain ⟨h1, h2⟩ := ih (by omega)
      rw [List.range_succ, List.foldl_append, List.foldl_cons, List.foldl_nil]
      obtain ⟨g1, g2⟩ := lassqStep_spec _ _ (x.getD (m * (1 : Int).toNat) 0) h1
      refine ⟨g1, ?_⟩
      rw [g2, h2, List.take_succ, List.getElem?_eq_getElem (by omega), List.map_append,
        List.sum_append, List.getD_eq_getElem x 0 (by simp; omega)]
      simp [add_assoc]
  obtain ⟨k1, k2⟩ := key n.toNat (by omega)
  refine ⟨_, _, ?_, k1, k2⟩
  show Dlassq n x 1 scale sumsq = _
  unfold Dlassq
  rw [if_neg (by omega)]

theorem refDcombssq_contract {α : Type} [LinearOrderedField α] (sqrt : α → α) :
    DcombssqContract (refImpl sqrt) := by
  intro s1 q1 s2 q2 h1 h2
  show 0 ≤ (Dcombssq s1 q1 s2 q2).1 ∧
    (Dcombssq s1 q1 s2 q2).1 ^ 2 * (Dcombssq s1 q1 s2 q2).2 = s1 ^ 2 * q1 + s2 ^ 2 * q2
  unfold Dcombssq
  by_cases h : s2 ≤ s1
  · rw [if_pos h]
    by_cases h' : s1 ≠ 0
    · rw [if_pos h']
      refine ⟨h1, ?_⟩
      simp only []
      field_simp
      ring
    · rw [if_neg h']
      have e1 : s1 = 0 := not_not.mp h'
      have e2 : s2 = 0 := le_antisymm (e1 ▸ h) h2
      refine ⟨h1, ?_⟩
      simp [e1, e2]
  · rw [if_neg h]
    have hs : s2 ≠ 0 := ne_of_gt (lt_of_le_of_lt h1 (not_le.mp h))
    refine ⟨h2, ?_⟩
    simp only []
    field_simp
    ring

theorem realSqrt_contract : SqrtContract (refImpl Real.sqrt) := by
  intro x hx
  exact ⟨Real.sqrt_nonneg x, Real.sq_sqrt hx⟩

theorem refDlassq_defined {α : Type} [LinearOrderedField α] (sqrt : α → α) :
    DlassqDefined (refImpl sqrt) := by
  intro n x scale sumsq hn hx
  show ∃ r, Dlassq n x 1 scale sumsq = .ok r
  unfold Dlassq
  rw [if_neg (by omega)]
  exact ⟨_, rfl⟩

/-! ## The accumulators do not panic -/

theorem slice_band_ok {F : Type} (n kl ku : Int) (ab : List F) (ldab i : Int)
    (hn : 0 ≤ i) (hi : i < n) (hkl : 0 ≤ kl) (hku : 0 ≤ ku) (hld : kl + 1 + ku ≤ ldab)
    (hlen : (n - 1) * ldab + (kl + 1 + ku) ≤ (ab.length : Int)) :
    ∃ row, slice ab (i * ldab + bandLower kl i) (i * ldab + bandUpper n kl ku i) = .ok row ∧
      (row.length : Int) = bandUpper n kl ku i - bandLower kl i := by
  obtain ⟨h1, h2, h3, h4, h5⟩ := band_bounds n kl ku ldab _ i hn hi hkl hku hld hlen
  unfold slice
  rw [if_pos ⟨by omega, by omega, h5⟩]
  refine ⟨_, rfl, ?_⟩
  rw [List.length_take, List.length_drop]
  omega

theorem colSumRow_len {F : Type} [FloatOps F] (l kl i : Int) (row : List F) (s : Nat)
    (w : List F) (hb : 0 ≤ colIndex l (s : Int) kl i)
    (hlen : colIndex l (s : Int) kl i + (row.length : Int) ≤ (w.length : Int)) :
    ∃ w', (row.enumFrom s).foldlM
        (fun work (p : Nat × F) => addAt work (colIndex l (p.1 : Int) kl i) (FloatOps.abs p.2)) w
        = .ok w' ∧ w'.length = w.length := by
  induction row generalizing s w with
  | nil => exact ⟨w, rfl, rfl⟩
  | cons a t ih =>
    have hlen' : colIndex l (s : Int) kl i + ((t.length : Int) + 1) ≤ (w.length : Int) := by
      simpa using hlen
    have hstep : colIndex l ((s + 1 : Nat) : Int) kl i = colIndex l (s : Int) kl i + 1 := by
      unfold colIndex; push_cast; ring
    have hlt : (colIndex l (s : Int) kl i).toNat < w.length := by omega
    obtain ⟨w', hw', hl'⟩ := ih (s + 1)
      (w.set (colIndex l (s : Int) kl i).toNat
        (FloatOps.add (w[(colIndex l (s : Int) kl i).toNat]) (FloatOps.abs a)))
      (by rw [hstep]; omega)
      (by rw [hstep, List.length_set]; omega)
    refine ⟨w', ?_, by rw [hl', List.length_set]⟩
    rw [List.enumFrom_cons, List.foldlM_cons]
    have e : addAt w (colIndex l (s : Int) kl i) (FloatOps.abs a) =
        .ok (w.set (colIndex l (s : Int) kl i).toNat
          (FloatOps.add (w[(colIndex l (s : Int) kl i).toNat]) (FloatOps.abs a))) := by
      unfold addAt
      rw [if_pos hb, List.getElem?_eq_getElem hlt]
    show (addAt w (colIndex l (s : Int) kl i) (FloatOps.abs a) >>= _) = _
    rw [e]
    exact hw'

theorem caseMaxAbs_ok {F : Type} [FloatOps F] (n kl ku : Int) (ab : List F) (ldab : Int)
    (hkl : 0 ≤ kl) (hku : 0 ≤ ku) (hld : kl + 1 + ku ≤ ldab)
    (hlen : (n - 1) * ldab + (kl + 1 + ku) ≤ (ab.length : Int)) :
    ∃ v, caseMaxAbs n kl ku ab ldab = .ok v := by
  obtain ⟨v, hv, _⟩ := forRows_inv n
    (fun i value => (slice ab (i * ldab + bandLower kl i)
      (i * ldab + bandUpper n kl ku i)).map (fun row => maxAbsRow value row))
    (fun _ _ => True) (FloatOps.zero : F) trivial
    (by
      intro i s hi _
      obtain ⟨row, hrow, _⟩ := slice_band_ok n kl ku ab ldab i (by omega) hi hkl hku hld hlen
      beta_reduce
      rw [hrow]
      exact ⟨maxAbsRow s row, rfl, trivial⟩)
  exact ⟨v, hv⟩

theorem caseMaxRowSum_ok {F : Type} [FloatOps F] (n kl ku : Int) (ab : List F) (ldab : Int)
    (hkl : 0 ≤ kl) (hku : 0 ≤ ku) (hld : kl + 1 + ku ≤ ldab)
    (hlen : (n - 1) * ldab + (kl + 1 + ku) ≤ (ab.length : Int)) :
    ∃ v, caseMaxRowSum n kl ku ab ldab = .ok v := by
  obtain ⟨v, hv, _⟩ := forRows_inv n
    (fun i value => (slice ab (i * ldab + bandLower kl i)
      (i * ldab + bandUpper n kl ku i)).map (fun row => updMax value (L1Norm row)))
    (fun _ _ => True) (FloatOps.zero : F) trivial
    (by
      intro i s hi _
      obtain ⟨row, hrow, _⟩ := slice_band_ok n kl ku ab ldab i (by omega) hi hkl hku hld hlen
      beta_reduce
      rw [hrow]
      exact ⟨updMax s (L1Norm row), rfl, trivial⟩)
  exact ⟨v, hv⟩

theorem caseMaxColumnSum_ok {F : Type} [FloatOps F] (n kl ku : Int) (ab : List F)
    (ldab : Int) (work : List F) (hn : 0 ≤ n) (hkl : 0 ≤ kl) (hku : 0 ≤ ku)
    (hld : kl + 1 + ku ≤ ldab) (hlen : (n - 1) * ldab + (kl + 1 + ku) ≤ (ab.length : Int))
    (hwork : n ≤ (work.length : Int)) :
    ∃ w, caseMaxColumnSum n kl ku ab ldab work =
        .ok (w.foldl updMax FloatOps.zero, w ++ work.drop n.toNat) ∧ w.length = n.toNat := by
  unfold caseMaxColumnSum
  rw [slice_zero work n hn hwork]
  obtain ⟨w, hw, hl⟩ := forRows_inv n
    (fun i w => (slice ab (i * ldab + bandLower kl i)
      (i * ldab + bandUpper n kl ku i)).bind
        (fun row => colSumRow (bandLower kl i) kl i row w))
    (fun _ w => w.length = n.toNat)
    ((List.take n.toNat work).map (fun _ => (FloatOps.zero : F)))
    (by simp; omega)
    (by
      intro i w hi hl
      obtain ⟨h1, h2, h3, h4, h5⟩ :=
        band_bounds n kl ku ldab _ i (by omega) hi hkl hku hld hlen
      obtain ⟨row, hrow, hrl⟩ :=
        slice_band_ok n kl ku ab ldab i (by omega) hi hkl hku hld hlen
      have hlu : bandLower kl i = max 0 (kl - i) := rfl
      have huu : bandUpper n kl ku i = min (n + kl - i) (kl + 1 + ku) := rfl
      obtain ⟨w', hw', hl'⟩ := colSumRow_len (bandLower kl i) kl i row 0 w
        (by unfold colIndex; omega) (by unfold colIndex; omega)
      beta_reduce
      rw [hrow]
      exact ⟨w', hw', by rw [hl', hl]⟩)
  refine ⟨w, ?_, hl⟩
  show Except.map _ (forRows n _ _) = _
  rw [hw]
  rfl

theorem caseFrobenius_ok {F : Type} [FloatOps F] (impl : Implementation F) (n kl ku : Int)
    (ab : List F) (ldab : Int) (hkl : 0 ≤ kl) (hku : 0 ≤ ku) (hld : kl + 1 + ku ≤ ldab)
    (hlen : (n - 1) * ldab + (kl + 1 + ku) ≤ (ab.length : Int)) (hq : DlassqDefined impl) :
    ∃ v, caseFrobenius impl n kl ku ab ldab = .ok v := by
  obtain ⟨acc, hw, _⟩ := forRows_inv n
    (fun i (acc : F × F) =>
      (sliceFrom ab (i * ldab + bandLower kl i)).bind (fun x =>
        (impl.Dlassq (bandUpper n kl ku i - bandLower kl i) x 1 FloatOps.zero
          FloatOps.one).map (fun r => impl.Dcombssq acc.1 acc.2 r.1 r.2)))
    (fun _ _ => True) ((FloatOps.zero : F), (FloatOps.one : F)) trivial
    (by
      intro i acc hi _
      obtain ⟨h1, h2, h3, h4, h5⟩ :=
        band_bounds n kl ku ldab _ i (by omega) hi hkl hku hld hlen
      obtain ⟨r, hr⟩ := hq (bandUpper n kl ku i - bandLower kl i)
        (ab.drop ((i : Int) * ldab + bandLower kl i).toNat) FloatOps.zero FloatOps.one
        (by omega) (by rw [List.length_drop]; omega)
      refine ⟨impl.Dcombssq acc.1 acc.2 r.1 r.2, ?_, trivial⟩
      beta_reduce
      unfold sliceFrom
      rw [if_pos ⟨by omega, by omega⟩]
      show ((impl.Dlassq _ _ 1 FloatOps.zero FloatOps.one).map _) = _
      rw [hr]
      rfl)
  refine ⟨FloatOps.mul acc.1 (impl.sqrt acc.2), ?_⟩
  show Except.map _ (forRows n _ _) = _
  rw [hw]
  rfl

theorem Dlangb_n_zero {F : Type} [FloatOps F] (impl : Implementation F) (norm : MatrixNorm)
    (kl ku : Int) (ab : List F) (ldab : Int) (work : List F)
    (hnorm : norm = .MaxAbs ∨ norm = .MaxRowSum ∨ norm = .MaxColumnSum ∨ norm = .Frobenius)
    (hkl : 0 ≤ kl) (hku : 0 ≤ ku) (hld : kl + 1 + ku ≤ ldab) :
    Dlangb impl norm 0 kl ku ab ldab work = .ok (FloatOps.zero, work) := by
  unfold Dlangb
  simp only []
  rw [if_neg (by rcases hnorm with h | h | h | h <;> simp [h]), if_neg (by omega),
    if_neg (by omega), if_neg (by omega), if_neg (by omega), if_pos trivial]

theorem Dlangb_ok_of_valid {F : Type} [FloatOps F] (impl : Implementation F)
    (norm : MatrixNorm) (n kl ku : Int) (ab : List F) (ldab : Int) (work : List F)
    (hv : Valid norm n kl ku ab ldab work) (hq : norm = .Frobenius → DlassqDefined impl) :
    ∃ r, Dlangb impl norm n kl ku ab ldab work = .ok r := by
  obtain ⟨h1, h2, h3, h4, h5, h6, h7⟩ := id hv
  rcases eq_or_lt_of_le h2 with hn | hn
  · subst hn
    exact ⟨_, Dlangb_n_zero impl norm kl ku ab ldab work h1 h3 h4 h5⟩
  · rw [Dlangb_of_valid impl norm n kl ku ab ldab work hv hn]
    rcases h1 with h | h | h | h <;> subst h
    · obtain ⟨v, hv'⟩ := caseMaxAbs_ok n kl ku ab ldab h3 h4 h5 h6
      exact ⟨(v, work), by show Except.map _ _ = _; rw [hv']; rfl⟩
    · obtain ⟨v, hv'⟩ := caseMaxRowSum_ok n kl ku ab ldab h3 h4 h5 h6
      exact ⟨(v, work), by show Except.map _ _ = _; rw [hv']; rfl⟩
    · obtain ⟨w, hw, _⟩ := caseMaxColumnSum_ok n kl ku ab ldab work h2 h3 h4 h5 h6 (h7 rfl)
      exact ⟨_, hw⟩
    · obtain ⟨v, hv'⟩ := caseFrobenius_ok impl n kl ku ab ldab h3 h4 h5 h6 (hq rfl)
      exact ⟨(v, work), by show Except.map _ _ = _; rw [hv']; rfl⟩

theorem Dlangb_error_of_not_valid {F : Type} [FloatOps F] (impl : Implementation F)
    (norm : MatrixNorm) (n kl ku : Int) (ab : List F) (ldab : Int) (work : List F)
    (hv : ¬ Valid norm n kl ku ab ldab work) :
    ∃ e, Dlangb impl norm n kl ku ab ldab work = .error e := by
  unfold Dlangb
  simp only []
  split_ifs with g1 g2 g3 g4 g5 g6 g7 g8
  · exact ⟨_, rfl⟩
  · exact ⟨_, rfl⟩
  · exact ⟨_, rfl⟩
  · exact ⟨_, rfl⟩
  · exact ⟨_, rfl⟩
  · exfalso
    apply hv
    subst g6
    refine ⟨?_, by omega, by omega, by omega, by omega, by omega, by intro _; omega⟩
    by_contra hc
    exact g1 ⟨fun h => hc (Or.inl h), fun h => hc (Or.inr (Or.inl h)),
      fun h => hc (Or.inr (Or.inr (Or.inl h))), fun h => hc (Or.inr (Or.inr (Or.inr h)))⟩
  · exact ⟨_, rfl⟩
  · exact ⟨_, rfl⟩
  · exfalso
    apply hv
    refine ⟨?_, by omega, by omega, by omega, by omega, by omega, ?_⟩
    · by_contra hc
      exact g1 ⟨fun h => hc (Or.inl h), fun h => hc (Or.inr (Or.inl h)),
        fun h => hc (Or.inr (Or.inr (Or.inl h))), fun h => hc (Or.inr (Or.inr (Or.inr h)))⟩
    · intro hm
      by_contra hc
      exact g8 ⟨by omega, hm⟩

/-! ## Independence of the padding -/

theorem forRows_congr {σ : Type} (n : Int) (body body' : Int → σ → Except PanicMsg σ)
    (init : σ) (h : ∀ (i : Nat) (s : σ), (i : Int) < n → body (i : Int) s = body' (i : Int) s) :
    forRows n body init = forRows n body' init := by
  unfold forRows
  have key : ∀ (L : List Nat) (a : σ), (∀ i ∈ L, (i : Int) < n) →
      L.foldlM (fun s (i : Nat) => body (i : Int) s) a =
        L.foldlM (fun s (i : Nat) => body' (i : Int) s) a := by
    intro L
    induction L with
    | nil => intro a _; rfl
    | cons b t ih =>
      intro a hL
      rw [List.foldlM_cons, List.foldlM_cons, h b a (hL b (List.mem_cons_self _ _))]
      congr 1
      funext s
      exact ih s (fun i hi => hL i (List.mem_cons_of_mem _ hi))
  exact key _ _ (fun i hi => by have := List.mem_range.mp hi; omega)

theorem rowOf_congr {α : Type} [Zero α] (n kl ku : Int) (ab ab' : List α) (ldab i : Int)
    (hi0 : 0 ≤ i) (hin : i < n)
    (hagree : ∀ i c, 0 ≤ i → i < n → max 0 (kl - i) ≤ c →
      c < min (n + kl - i) (kl + 1 + ku) → elemAt ab (i * ldab + c) = elemAt ab' (i * ldab + c)) :
    rowOf n kl ku ab ldab i = rowOf n kl ku ab' ldab i := by
  unfold rowOf
  apply List.map_congr_left
  intro k hk
  have hk' := List.mem_range.mp hk
  have hlu : bandLower kl i = max 0 (kl - i) := rfl
  have huu : bandUpper n kl ku i = min (n + kl - i) (kl + 1 + ku) := rfl
  have := hagree i (bandLower kl i + (k : Int)) hi0 hin (by omega) (by omega)
  rwa [← add_assoc] at this

theorem slice_band_congr {α : Type} [Zero α] (n kl ku : Int) (ab ab' : List α)
    (ldab : Int) (i : Nat) (hi : (i : Int) < n) (hkl : 0 ≤ kl) (hku : 0 ≤ ku)
    (hld : kl + 1 + ku ≤ ldab)
    (hlen : (n - 1) * ldab + (kl + 1 + ku) ≤ (ab.length : Int))
    (hlen' : (n - 1) * ldab + (kl + 1 + ku) ≤ (ab'.length : Int))
    (hagree : ∀ i c, 0 ≤ i → i < n → max 0 (kl - i) ≤ c →
      c < min (n + kl - i) (kl + 1 + ku) → elemAt ab (i * ldab + c) = elemAt ab' (i * ldab + c)) :
    slice ab ((i : Int) * ldab + bandLower kl i) ((i : Int) * ldab + bandUpper n kl ku i) =
      slice ab' ((i : Int) * ldab + bandLower kl i) ((i : Int) * ldab + bandUpper n kl ku i) := by
  rw [slice_band n kl ku ab ldab i (by omega) hi hkl hku hld hlen,
    slice_band n kl ku ab' ldab i (by omega) hi hkl hku hld hlen',
    rowOf_congr n kl ku ab ab' ldab i (by omega) hi hagree]

theorem bandSumSq_congr {α : Type} [LinearOrderedField α] (n kl ku : Int) (ab ab' : List α)
    (ldab : Int)
    (hagree : ∀ i c, 0 ≤ i → i < n → max 0 (kl - i) ≤ c →
      c < min (n + kl - i) (kl + 1 + ku) → elemAt ab (i * ldab + c) = elemAt ab' (i * ldab + c)) :
    bandSumSq n kl ku ab ldab = bandSumSq n kl ku ab' ldab := by
  unfold bandSumSq
  apply Finset.sum_congr rfl
  intro i hi
  apply Finset.sum_congr rfl
  intro c hc
  simp only [Finset.mem_Ico] at hi hc
  rw [hagree i c hi.1 hi.2 hc.1 hc.2]

theorem normSwitch_congr {α : Type} [LinearOrderedField α] (impl : Implementation α)
    (norm : MatrixNorm) (n kl ku : Int) (ab ab' : List α) (ldab : Int) (work : List α)
    (hkl : 0 ≤ kl) (hku : 0 ≤ ku) (hld : kl + 1 + ku ≤ ldab)
    (hlen : (n - 1) * ldab + (kl + 1 + ku) ≤ (ab.length : Int))
    (hlen' : (n - 1) * ldab + (kl + 1 + ku) ≤ (ab'.length : Int))
    (hq : norm = .Frobenius →
      DlassqContract impl ∧ DcombssqContract impl ∧ SqrtContract impl)
    (hagree : ∀ i c, 0 ≤ i → i < n → max 0 (kl - i) ≤ c →
      c < min (n + kl - i) (kl + 1 + ku) → elemAt ab (i * ldab + c) = elemAt ab' (i * ldab + c)) :
    normSwitch impl norm n kl ku ab ldab work = normSwitch impl norm n kl ku ab' ldab work := by
  cases norm with
  | MaxAbs =>
    show Except.map _ (caseMaxAbs n kl ku ab ldab) = Except.map _ (caseMaxAbs n kl ku ab' ldab)
    congr 1
    unfold caseMaxAbs
    apply forRows_congr
    intro i s hi
    simp only []
    rw [slice_band_congr n kl ku ab ab' ldab i hi hkl hku hld hlen hlen' hagree]
  | MaxRowSum =>
    show Except.map _ (caseMaxRowSum n kl ku ab ldab) =
      Except.map _ (caseMaxRowSum n kl ku ab' ldab)
    congr 1
    unfold caseMaxRowSum
    apply forRows_congr
    intro i s hi
    simp only []
    rw [slice_band_congr n kl ku ab ab' ldab i hi hkl hku hld hlen hlen' hagree]
  | MaxColumnSum =>
    show caseMaxColumnSum n kl ku ab ldab work = caseMaxColumnSum n kl ku ab' ldab work
    unfold caseMaxColumnSum
    congr 1
    funext w
    congr 1
    apply forRows_congr
    intro i s hi
    simp only []
    rw [slice_band_congr n kl ku ab ab' ldab i hi hkl hku hld hlen hlen' hagree]
  | Frobenius =>
    obtain ⟨h1, h2, h3⟩ := hq rfl
    obtain ⟨v, hv, hv0, hvs⟩ := caseFrobenius_spec impl n kl ku ab ldab hkl hku hld hlen h1 h2 h3
    obtain ⟨v', hv', hv0', hvs'⟩ :=
      caseFrobenius_spec impl n kl ku ab' ldab hkl hku hld hlen' h1 h2 h3
    show Except.map _ (caseFrobenius impl n kl ku ab ldab) =
      Except.map _ (caseFrobenius impl n kl ku ab' ldab)
    rw [hv, hv']
    have e : v = v' := by
      rw [bandSumSq_congr n kl ku ab ab' ldab hagree, ← hvs'] at hvs
      exact (pow_left_inj₀ hv0 hv0' (by norm_num)).mp hvs
    rw [e]
  | Other code => rfl

/-! ## NaN propagation -/

theorem updMax_nan_left {α : Type} [LinearOrderedField α] (x : NaNExt α) :
    updMax NaNExt.nan x = NaNExt.nan := by
  cases x <;> rfl

theorem updMax_nan_right {α : Type} [LinearOrderedField α] (v : NaNExt α) :
    updMax v NaNExt.nan = NaNExt.nan := by
  cases v <;> rfl

theorem add_nan_left {α : Type} [LinearOrderedField α] (x : NaNExt α) :
    FloatOps.add NaNExt.nan x = NaNExt.nan := by
  cases x <;> rfl

theorem add_nan_right {α : Type} [LinearOrderedField α] (x : NaNExt α) :
    FloatOps.add x NaNExt.nan = NaNExt.nan := by
  cases x <;> rfl

theorem abs_nan {α : Type} [LinearOrderedField α] :
    FloatOps.abs (NaNExt.nan : NaNExt α) = NaNExt.nan := rfl

theorem maxAbsRow_nan_left {α : Type} [LinearOrderedField α] (row : List (NaNExt α)) :
    maxAbsRow NaNExt.nan row = NaNExt.nan := by
  induction row with
  | nil => rfl
  | cons a t ih =>
    show maxAbsRow (updMax NaNExt.nan (FloatOps.abs a)) t = _
    rw [updMax_nan_left, ih]

theorem maxAbsRow_nan_mem {α : Type} [LinearOrderedField α] (row : List (NaNExt α))
    (v : NaNExt α) (h : NaNExt.nan ∈ row) : maxAbsRow v row = NaNExt.nan := by
  induction row generalizing v with
  | nil => simp at h
  | cons a t ih =>
    show maxAbsRow (updMax v (FloatOps.abs a)) t = _
    rcases List.mem_cons.mp h with h | h
    · rw [← h, abs_nan, updMax_nan_right, maxAbsRow_nan_left]
    · exact ih _ h

theorem L1Norm_nan_mem {α : Type} [LinearOrderedField α] (row : List (NaNExt α))
    (h : NaNExt.nan ∈ row) : L1Norm row = NaNExt.nan := by
  have left : ∀ l : List (NaNExt α),
      l.foldl (fun sum v => FloatOps.add sum (FloatOps.abs v)) NaNExt.nan = NaNExt.nan := by
    intro l
    induction l with
    | nil => rfl
    | cons a t ih => rw [List.foldl_cons, add_nan_left, ih]
  have key : ∀ (l : List (NaNExt α)) (s : NaNExt α), NaNExt.nan ∈ l →
      l.foldl (fun sum v => FloatOps.add sum (FloatOps.abs v)) s = NaNExt.nan := by
    intro l
    induction l with
    | nil => intro s h; simp at h
    | cons a t ih =>
      intro s h
      rw [List.foldl_cons]
      rcases List.mem_cons.mp h with h | h
      · rw [← h, abs_nan, add_nan_right, left]
      · exact ih _ h
  exact key row _ h

theorem foldl_updMax_nan {α : Type} [LinearOrderedField α] (w : List (NaNExt α))
    (v : NaNExt α) (h : NaNExt.nan ∈ w) : w.foldl updMax v = NaNExt.nan := by
  have left : ∀ l : List (NaNExt α), l.foldl updMax NaNExt.nan = NaNExt.nan := by
    intro l
    induction l with
    | nil => rfl
    | cons a t ih => rw [List.foldl_cons, updMax_nan_left, ih]
  induction w generalizing v with
  | nil => simp at h
  | cons a t ih =>
    rw [List.foldl_cons]
    rcases List.mem_cons.mp h with h | h
    · rw [← h, updMax_nan_right, left]
    · exact ih _ h

theorem colSumRow_nan {α : Type} [LinearOrderedField α] (l kl i : Int)
    (row : List (NaNExt α)) (s : Nat) (w : List (NaNExt α))
    (hb : 0 ≤ colIndex l (s : Int) kl i)
    (hlen : colIndex l (s : Int) kl i + (row.length : Int) ≤ (w.length : Int)) :
    ∃ w', (row.enumFrom s).foldlM
        (fun work (p : Nat × NaNExt α) =>
          addAt work (colIndex l (p.1 : Int) kl i) (FloatOps.abs p.2)) w = .ok w' ∧
      w'.length = w.length ∧ (NaNExt.nan ∈ w → NaNExt.nan ∈ w') ∧
      (NaNExt.nan ∈ row → NaNExt.nan ∈ w') := by
  induction row generalizing s w with
  | nil => exact ⟨w, rfl, rfl, id, by simp⟩
  | cons a t ih =>
    have hlen' : colIndex l (s : Int) kl i + ((t.length : Int) + 1) ≤ (w.length : Int) := by
      simpa using hlen
    have hstep : colIndex l ((s + 1 : Nat) : Int) kl i = colIndex l (s : Int) kl i + 1 := by
      unfold colIndex; push_cast; ring
    have hlt : (colIndex l (s : Int) kl i).toNat < w.length := by omega
    obtain ⟨w', hw', hl', hk1, hk2⟩ := ih (s + 1)
      (w.set (colIndex l (s : Int) kl i).toNat
        (FloatOps.add (w[(colIndex l (s : Int) kl i).toNat]) (FloatOps.abs a)))
      (by rw [hstep]; omega)
      (by rw [hstep, List.length_set]; omega)
    have e : addAt w (colIndex l (s : Int) kl i) (FloatOps.abs a) =
        .ok (w.set (colIndex l (s : Int) kl i).toNat
          (FloatOps.add (w[(colIndex l (s : Int) kl i).toNat]) (FloatOps.abs a))) := by
      unfold addAt
      rw [if_pos hb, List.getElem?_eq_getElem hlt]
    refine ⟨w', ?_, by rw [hl', List.length_set], ?_, ?_⟩
    · rw [List.enumFrom_cons, List.foldlM_cons]
      show (addAt w (colIndex l (s : Int) kl i) (FloatOps.abs a) >>= _) = _
      rw [e]
      exact hw'
    · intro hmem
      apply hk1
      obtain ⟨k, hk, hk'⟩ := List.getElem_of_mem hmem
      rw [List.mem_iff_getElem]
      refine ⟨k, by rw [List.length_set]; exact hk, ?_⟩
      rw [List.getElem_set]
      by_cases hj : (colIndex l (s : Int) kl i).toNat = k
      · rw [if_pos hj]
        subst hj
        rw [hk', add_nan_left]
      · rw [if_neg hj, hk']
    · intro hmem
      rcases List.mem_cons.mp hmem with h | h
      · apply hk1
        rw [List.mem_iff_getElem]
        refine ⟨(colIndex l (s : Int) kl i).toNat, by rw [List.length_set]; exact hlt, ?_⟩
        rw [List.getElem_set_self, ← h, abs_nan, add_nan_right]
      · exact hk2 h

theorem caseMaxAbs_nan {α : Type} [LinearOrderedField α] (n kl ku : Int)
    (ab : List (NaNExt α)) (ldab : Int) (hkl : 0 ≤ kl) (hku : 0 ≤ ku)
    (hld : kl + 1 + ku ≤ ldab) (hlen : (n - 1) * ldab + (kl + 1 + ku) ≤ (ab.length : Int))
    (hnan : ∃ i : Nat, (i : Int) < n ∧ NaNExt.nan ∈ rowOf n kl ku ab ldab i) :
    caseMaxAbs n kl ku ab ldab = .ok NaNExt.nan := by
  obtain ⟨v, hv, hP⟩ := forRows_inv n
    (fun i value => (slice ab (i * ldab + bandLower kl i)
      (i * ldab + bandUpper n kl ku i)).map (fun row => maxAbsRow value row))
    (fun m v => (∃ i : Nat, i < m ∧ NaNExt.nan ∈ rowOf n kl ku ab ldab i) → v = NaNExt.nan)
    (FloatOps.zero : NaNExt α) (by rintro ⟨i, hi, _⟩; omega)
    (by
      intro i s hi hP
      beta_reduce
      rw [slice_band n kl ku ab ldab i (by omega) hi hkl hku hld hlen]
      refine ⟨maxAbsRow s (rowOf n kl ku ab ldab i), rfl, ?_⟩
      rintro ⟨k, hk, hmem⟩
      rcases Nat.lt_succ_iff_lt_or_eq.mp hk with hk | rfl
      · rw [hP ⟨k, hk, hmem⟩, maxAbsRow_nan_left]
      · exact maxAbsRow_nan_mem _ _ hmem)
  obtain ⟨i, hi, hmem⟩ := hnan
  have := hP ⟨i, by omega, hmem⟩
  rw [this] at hv
  exact hv

theorem caseMaxRowSum_nan {α : Type} [LinearOrderedField α] (n kl ku : Int)
    (ab : List (NaNExt α)) (ldab : Int) (hkl : 0 ≤ kl) (hku : 0 ≤ ku)
    (hld : kl + 1 + ku ≤ ldab) (hlen : (n - 1) * ldab + (kl + 1 + ku) ≤ (ab.length : Int))
    (hnan : ∃ i : Nat, (i : Int) < n ∧ NaNExt.nan ∈ rowOf n kl ku ab ldab i) :
    caseMaxRowSum n kl ku ab ldab = .ok NaNExt.nan := by
  obtain ⟨v, hv, hP⟩ := forRows_inv n
    (fun i value => (slice ab (i * ldab + bandLower kl i)
      (i * ldab + bandUpper n kl ku i)).map (fun row => updMax value (L1Norm row)))
    (fun m v => (∃ i : Nat, i < m ∧ NaNExt.nan ∈ rowOf n kl ku ab ldab i) → v = NaNExt.nan)
    (FloatOps.zero : NaNExt α) (by rintro ⟨i, hi, _⟩; omega)
    (by
      intro i s hi hP
      beta_reduce
      rw [slice_band n kl ku ab ldab i (by omega) hi hkl hku hld hlen]
      refine ⟨updMax s (L1Norm (rowOf n kl ku ab ldab i)), rfl, ?_⟩
      rintro ⟨k, hk, hmem⟩
      rcases Nat.lt_succ_iff_lt_or_eq.mp hk with hk | rfl
      · rw [hP ⟨k, hk, hmem⟩, updMax_nan_left]
      · rw [L1Norm_nan_mem _ hmem, updMax_nan_right])
  obtain ⟨i, hi, hmem⟩ := hnan
  have := hP ⟨i, by omega, hmem⟩
  rw [this] at hv
  exact hv

theorem caseMaxColumnSum_nan {α : Type} [LinearOrderedField α] (n kl ku : Int)
    (ab : List (NaNExt α)) (ldab : Int) (work : List (NaNExt α)) (hn : 0 ≤ n)
    (hkl : 0 ≤ kl) (hku : 0 ≤ ku) (hld : kl + 1 + ku ≤ ldab)
    (hlen : (n - 1) * ldab + (kl + 1 + ku) ≤ (ab.length : Int))
    (hwork : n ≤ (work.length : Int))
    (hnan : ∃ i : Nat, (i : Int) < n ∧ NaNExt.nan ∈ rowOf n kl ku ab ldab i) :
    ∃ w, caseMaxColumnSum n kl ku ab ldab work = .ok (NaNExt.nan, w) := by
  unfold caseMaxColumnSum
  rw [slice_zero work n hn hwork]
  obtain ⟨w, hw, hl, hP⟩ := forRows_inv n
    (fun i w => (slice ab (i * ldab + bandLower kl i)
      (i * ldab + bandUpper n kl ku i)).bind
        (fun row => colSumRow (bandLower kl i) kl i row w))
    (fun m w => w.length = n.toNat ∧
      ((∃ i : Nat, i < m ∧ NaNExt.nan ∈ rowOf n kl ku ab ldab i) → NaNExt.nan ∈ w))
    ((List.take n.toNat work).map (fun _ => (FloatOps.zero : NaNExt α)))
    ⟨by simp; omega, by rintro ⟨i, hi, _⟩; omega⟩
    (by
      intro i w hi ⟨hl, hP⟩
      obtain ⟨h1, h2, h3, h4, h5⟩ :=
        band_bounds n kl ku ldab _ i (by omega) hi hkl hku hld hlen
      have hL := length_rowOf n kl ku ab ldab i
      have hlu : bandLower kl i = max 0 (kl - i) := rfl
      have huu : bandUpper n kl ku i = min (n + kl - i) (kl + 1 + ku) := rfl
      obtain ⟨w', hw', hl', hk1, hk2⟩ := colSumRow_nan (bandLower kl i) kl i
        (rowOf n kl ku ab ldab i) 0 w
        (by unfold colIndex; omega) (by unfold colIndex; omega)
      beta_reduce
      rw [slice_band n kl ku ab ldab i (by omega) hi hkl hku hld hlen]
      refine ⟨w', hw', by rw [hl', hl], ?_⟩
      rintro ⟨k, hk, hmem⟩
      rcases Nat.lt_succ_iff_lt_or_eq.mp hk with hk | rfl
      · exact hk1 (hP ⟨k, hk, hmem⟩)
      · exact hk2 hmem)
  obtain ⟨i, hi, hmem⟩ := hnan
  refine ⟨w ++ work.drop n.toNat, ?_⟩
  show Except.map _ (forRows n _ _) = _
  rw [hw]
  show Except.ok (w.foldl updMax FloatOps.zero, _) = _
  rw [foldl_updMax_nan w _ (hP ⟨i, by omega, hmem⟩)]

theorem not_valid_iff {F : Type} (norm : MatrixNorm) (n kl ku : Int) (ab : List F)
    (ldab : Int) (work : List F) :
    ¬ Valid norm n kl ku ab ldab work ↔
      ((norm ≠ .MaxAbs ∧ norm ≠ .MaxRowSum ∧ norm ≠ .MaxColumnSum ∧ norm ≠ .Frobenius) ∨
        n < 0 ∨ kl < 0 ∨ ku < 0 ∨ ldab < kl + 1 + ku ∨
        (ab.length : Int) < (n - 1) * ldab + (kl + 1 + ku) ∨
        (norm = .MaxColumnSum ∧ (work.length : Int) < n)) := by
  unfold Valid
  constructor
  · intro h
    by_contra hc
    simp only [not_or, not_and, not_lt, ne_eq] at hc
    obtain ⟨c1, c2, c3, c4, c5, c6, c7⟩ := hc
    apply h
    refine ⟨?_, c2, c3, c4, c5, c6, c7⟩
    by_contra hn
    simp only [not_or] at hn
    exact c1 hn.1 hn.2.1 hn.2.2.1 hn.2.2.2
  · rintro h ⟨v1, v2, v3, v4, v5, v6, v7⟩
    rcases h with h | h | h | h | h | h | h
    · rcases v1 with v | v | v | v
      · exact h.1 v
      · exact h.2.1 v
      · exact h.2.2.1 v
      · exact h.2.2.2 v
    · omega
    · omega
    · omega
    · omega
    · omega
    · have := v7 h.1
      omega

theorem nan_mem_rowOf {α : Type} [LinearOrderedField α] (n kl ku : Int)
    (ab : List (NaNExt α)) (ldab : Int)
    (hnan : ∃ i c, 0 ≤ i ∧ i < n ∧ max 0 (kl - i) ≤ c ∧ c < min (n + kl - i) (kl + 1 + ku) ∧
      elemAt ab (i * ldab + c) = NaNExt.nan) :
    ∃ i : Nat, (i : Int) < n ∧ NaNExt.nan ∈ rowOf n kl ku ab ldab i := by
  obtain ⟨i, c, h1, h2, h3, h4, h5⟩ := hnan
  refine ⟨i.toNat, by omega, ?_⟩
  rw [Int.toNat_of_nonneg h1]
  exact (mem_rowOf n kl ku ab ldab i _).mpr ⟨c, h3, h4, h5.symm⟩

/-! ## Relations between the norms -/

theorem band_term_le_rowSum {α : Type} [LinearOrderedField α] (n kl ku : Int) (ab : List α)
    (ldab i c : Int) (hl : bandLower kl i ≤ c) (hu : c < bandUpper n kl ku i) :
    |elemAt ab (i * ldab + c)| ≤ rowSum n kl ku ab ldab i := by
  have hlu : bandLower kl i = max 0 (kl - i) := rfl
  have huu : bandUpper n kl ku i = min (n + kl - i) (kl + 1 + ku) := rfl
  have hmem : c - kl + i ∈ (Finset.Ico (0 : Int) n).filter
      (fun j => i - kl ≤ j ∧ j ≤ i + ku) := by
    simp only [Finset.mem_filter, Finset.mem_Ico]
    omega
  have h := Finset.single_le_sum
    (f := fun j => |elemAt ab (i * ldab + kl + j - i)|)
    (fun j _ => abs_nonneg _) hmem
  have e : i * ldab + kl + (c - kl + i) - i = i * ldab + c := by ring
  simp only [e] at h
  exact h

theorem band_term_le_colSum {α : Type} [LinearOrderedField α] (n kl ku : Int) (ab : List α)
    (ldab i c : Int) (hi0 : 0 ≤ i) (hin : i < n) (hl : bandLower kl i ≤ c)
    (hu : c < bandUpper n kl ku i) :
    0 ≤ c - kl + i ∧ c - kl + i < n ∧
      |elemAt ab (i * ldab + c)| ≤ colSum n kl ku ab ldab (c - kl + i) := by
  have hlu : bandLower kl i = max 0 (kl - i) := rfl
  have huu : bandUpper n kl ku i = min (n + kl - i) (kl + 1 + ku) := rfl
  refine ⟨by omega, by omega, ?_⟩
  have hmem : i ∈ (Finset.Ico (0 : Int) n).filter
      (fun r => r - kl ≤ c - kl + i ∧ c - kl + i ≤ r + ku) := by
    simp only [Finset.mem_filter, Finset.mem_Ico]
    omega
  have h := Finset.single_le_sum
    (f := fun r => |elemAt ab (r * ldab + kl + (c - kl + i) - r)|)
    (fun r _ => abs_nonneg _) hmem
  have e : i * ldab + kl + (c - kl + i) - i = i * ldab + c := by ring
  simp only [e] at h
  exact h

theorem band_sq_le_bandSumSq {α : Type} [LinearOrderedField α] (n kl ku : Int) (ab : List α)
    (ldab i c : Int) (hi0 : 0 ≤ i) (hin : i < n) (hl : bandLower kl i ≤ c)
    (hu : c < bandUpper n kl ku i) :
    elemAt ab (i * ldab + c) ^ 2 ≤ bandSumSq n kl ku ab ldab := by
  have hlu : bandLower kl i = max 0 (kl - i) := rfl
  have huu : bandUpper n kl ku i = min (n + kl - i) (kl + 1 + ku) := rfl
  have h1 := Finset.single_le_sum
    (f := fun c => elemAt ab (i * ldab + c) ^ 2)
    (s := Finset.Ico (max 0 (kl - i)) (min (n + kl - i) (kl + 1 + ku)))
    (fun c _ => sq_nonneg _) (Finset.mem_Ico.mpr ⟨hlu ▸ hl, huu ▸ hu⟩)
  have h2 := Finset.single_le_sum
    (f := fun i => ∑ c in Finset.Ico (max 0 (kl - i)) (min (n + kl - i) (kl + 1 + ku)),
      elemAt ab (i * ldab + c) ^ 2)
    (s := Finset.Ico (0 : Int) n)
    (fun i _ => Finset.sum_nonneg (fun c _ => sq_nonneg _))
    (Finset.mem_Ico.mpr ⟨hi0, hin⟩)
  exact le_trans h1 h2

theorem Dlangb_map_ok {F : Type} [FloatOps F] (impl : Implementation F) (norm : MatrixNorm)
    (n kl ku : Int) (ab : List F) (ldab : Int) (work : List F) (v : F)
    (c : Except PanicMsg F) (hv : Valid norm n kl ku ab ldab work) (hn : 0 < n)
    (hs : normSwitch impl norm n kl ku ab ldab work = c.map (fun value => (value, work)))
    (hc : c = .ok v) :
    Dlangb impl norm n kl ku ab ldab work = .ok (v, work) := by
  rw [Dlangb_of_valid impl norm n kl ku ab ldab work hv hn, hs, hc]
  rfl

theorem valid_of_valid {F : Type} (norm norm' : MatrixNorm) (n kl ku : Int) (ab : List F)
    (ldab : Int) (work work' : List F) (hv : Valid norm n kl ku ab ldab work)
    (hnorm : norm' = .MaxAbs ∨ norm' = .MaxRowSum ∨ norm' = .Frobenius) :
    Valid norm' n kl ku ab ldab work' := by
  obtain ⟨_, h2, h3, h4, h5, h6, _⟩ := hv
  refine ⟨?_, h2, h3, h4, h5, h6, ?_⟩
  · rcases hnorm with h | h | h <;> simp [h]
  · intro h
    rcases hnorm with h' | h' | h' <;> rw [h'] at h <;> cases h

theorem map_const_take {F : Type} (work : List F) (z : F) (n : Nat) (h : n ≤ work.length) :
    (work.take n).map (fun _ => z) = List.replicate n z := by
  apply List.ext_getElem
  · simp; omega
  · intro k h1 h2
    simp

theorem caseMaxColumnSum_eq {F : Type} [FloatOps F] (n kl ku : Int) (ab : List F)
    (ldab : Int) (work : List F) (hn : 0 ≤ n) (hwork : n ≤ (work.length : Int)) :
    caseMaxColumnSum n kl ku ab ldab work =
      (forRows n (fun i w =>
        (slice ab (i * ldab + bandLower kl i) (i * ldab + bandUpper n kl ku i)).bind
          (fun row => colSumRow (bandLower kl i) kl i row w))
        (List.replicate n.toNat FloatOps.zero)).map (fun w =>
          (w.foldl updMax FloatOps.zero, w ++ work.drop n.toNat)) := by
  unfold caseMaxColumnSum
  rw [slice_zero work n hn hwork, ← map_const_take work FloatOps.zero n.toNat (by omega)]
  rfl

theorem caseMaxColumnSum_two_works {F : Type} [FloatOps F] (n kl ku : Int) (ab : List F)
    (ldab : Int) (work1 work2 : List F) (hn : 0 ≤ n) (hkl : 0 ≤ kl) (hku : 0 ≤ ku)
    (hld : kl + 1 + ku ≤ ldab) (hlen : (n - 1) * ldab + (kl + 1 + ku) ≤ (ab.length : Int))
    (hw1 : n ≤ (work1.length : Int)) (hw2 : n ≤ (work2.length : Int)) :
    ∃ w, w.length = n.toNat ∧
      caseMaxColumnSum n kl ku ab ldab work1 =
        .ok (w.foldl updMax FloatOps.zero, w ++ work1.drop n.toNat) ∧
      caseMaxColumnSum n kl ku ab ldab work2 =
        .ok (w.foldl updMax FloatOps.zero, w ++ work2.drop n.toNat) := by
  obtain ⟨w, hw, hl⟩ := caseMaxColumnSum_ok n kl ku ab ldab work1 hn hkl hku hld hlen hw1
  refine ⟨w, hl, hw, ?_⟩
  rw [caseMaxColumnSum_eq n kl ku ab ldab work1 hn hw1] at hw
  rw [caseMaxColumnSum_eq n kl ku ab ldab work2 hn hw2]
  generalize forRows n (fun i w =>
        (slice ab (i * ldab + bandLower kl i) (i * ldab + bandUpper n kl ku i)).bind
          (fun row => colSumRow (bandLower kl i) kl i row w))
        (List.replicate n.toNat FloatOps.zero) = res at hw ⊢
  cases res with
  | error e => cases hw
  | ok w' =>
    have h := Except.ok.inj hw
    have e : w' = w := List.append_cancel_right (congrArg Prod.snd h)
    rw [e]
    rfl

theorem rowSum_zero {α : Type} [LinearOrderedField α] (n kl ku : Int) (ab : List α)
    (ldab i : Int) (hi0 : 0 ≤ i) (hin : i < n)
    (hz : ∀ i c, 0 ≤ i → i < n → max 0 (kl - i) ≤ c → c < min (n + kl - i) (kl + 1 + ku) →
      elemAt ab (i * ldab + c) = 0) :
    rowSum n kl ku ab ldab i = 0 := by
  unfold rowSum
  apply Finset.sum_eq_zero
  intro j hj
  simp only [Finset.mem_filter, Finset.mem_Ico] at hj
  have := hz i (j + kl - i) hi0 hin (by omega) (by omega)
  have e : i * ldab + (j + kl - i) = i * ldab + kl + j - i := by ring
  rw [e] at this
  rw [this, abs_zero]

theorem colSum_zero {α : Type} [LinearOrderedField α] (n kl ku : Int) (ab : List α)
    (ldab j : Int) (hj0 : 0 ≤ j) (hjn : j < n)
    (hz : ∀ i c, 0 ≤ i → i < n → max 0 (kl - i) ≤ c → c < min (n + kl - i) (kl + 1 + ku) →
      elemAt ab (i * ldab + c) = 0) :
    colSum n kl ku ab ldab j = 0 := by
  unfold colSum
  apply Finset.sum_eq_zero
  intro i hi
  simp only [Finset.mem_filter, Finset.mem_Ico] at hi
  have := hz i (j + kl - i) hi.1.1 hi.1.2 (by omega) (by omega)
  have e : i * ldab + (j + kl - i) = i * ldab + kl + j - i := by ring
  rw [e] at this
  rw [this, abs_zero]

theorem bandSumSq_zero {α : Type} [LinearOrderedField α] (n kl ku : Int) (ab : List α)
    (ldab : Int)
    (hz : ∀ i c, 0 ≤ i → i < n → max 0 (kl - i) ≤ c → c < min (n + kl - i) (kl + 1 + ku) →
      elemAt ab (i * ldab + c) = 0) :
    bandSumSq n kl ku ab ldab = 0 := by
  unfold bandSumSq
  apply Finset.sum_eq_zero
  intro i hi
  apply Finset.sum_eq_zero
  intro c hc
  simp only [Finset.mem_Ico] at hi hc
  rw [hz i c hi.1 hi.2 hc.1 hc.2]
  simp

/-! ## Evaluation of the reference sums -/

theorem rowSum_range {α : Type} [LinearOrderedField α] (n kl ku : Int) (ab : List α)
    (ldab i : Int) :
    rowSum n kl ku ab ldab i = ∑ r in Finset.range n.toNat,
      (if i - kl ≤ (r : Int) ∧ (r : Int) ≤ i + ku
        then |elemAt ab (i * ldab + kl + (r : Int) - i)| else 0) := by
  unfold rowSum
  rw [Finset.sum_filter, sum_range_toNat (fun j => if i - kl ≤ j ∧ j ≤ i + ku
        then |elemAt ab (i * ldab + kl + j - i)| else 0) n]

theorem colSum_range {α : Type} [LinearOrderedField α] (n kl ku : Int) (ab : List α)
    (ldab j : Int) :
    colSum n kl ku ab ldab j = ∑ r in Finset.range n.toNat,
      (if (r : Int) - kl ≤ j ∧ j ≤ (r : Int) + ku
        then |elemAt ab ((r : Int) * ldab + kl + j - (r : Int))| else 0) := by
  unfold colSum
  rw [Finset.sum_filter, sum_range_toNat (fun i => if i - kl ≤ j ∧ j ≤ i + ku
        then |elemAt ab (i * ldab + kl + j - i)| else 0) n]

theorem bandSumSq_range {α : Type} [LinearOrderedField α] (n kl ku : Int) (ab : List α)
    (ldab : Int) :
    bandSumSq n kl ku ab ldab = ∑ r in Finset.range n.toNat,
      ∑ k in Finset.range
          (min (n + kl - (r : Int)) (kl + 1 + ku) - max 0 (kl - (r : Int))).toNat,
        elemAt ab ((r : Int) * ldab + (max 0 (kl - (r : Int)) + (k : Int))) ^ 2 := by
  unfold bandSumSq
  rw [← sum_range_toNat (fun i => ∑ c in Finset.Ico (max 0 (kl - i))
    (min (n + kl - i) (kl + 1 + ku)), elemAt ab (i * ldab + c) ^ 2) n]
  apply Finset.sum_congr rfl
  intro r _
  rw [← sum_range_eq_sum_Ico (fun c => elemAt ab ((r : Int) * ldab + c) ^ 2)]

theorem eq_of_sq_eq_sq_nonneg {α : Type} [LinearOrderedField α] (v a : α) (hv : 0 ≤ v)
    (ha : 0 ≤ a) (h : v ^ 2 = a ^ 2) : v = a :=
  (pow_left_inj₀ hv ha (by norm_num)).mp h

/-! ## The two scenarios -/

theorem tridiag_maxAbs {α : Type} [LinearOrderedField α] (p q : α) :
    caseMaxAbs 3 1 1 [p, 2, -1, -1, 2, -1, -1, 2, q] 3 = .ok 2 := by
  obtain ⟨v, hv, hall, i, c, hi0, hin, hl, hu, hvv⟩ :=
    caseMaxAbs_spec 3 1 1 [p, 2, -1, -1, 2, -1, -1, 2, q] 3 (by decide) (by decide) (by decide)
      (by decide) (by simp)
  have h2 := hall 0 1 (by decide) (by decide) (by decide) (by decide)
  simp [elemAt] at h2
  simp only [bandLower, bandUpper] at hl hu
  have e : v = 2 := by
    have hi : i = 0 ∨ i = 1 ∨ i = 2 := by omega
    rcases hi with rfl | rfl | rfl
    · have hc : c = 1 ∨ c = 2 := by omega
      rcases hc with rfl | rfl
      · simpa [elemAt] using hvv
      · simp [elemAt] at hvv
        linarith
    · have hc : c = 0 ∨ c = 1 ∨ c = 2 := by omega
      rcases hc with rfl | rfl | rfl
      · simp [elemAt] at hvv
        linarith
      · simpa [elemAt] using hvv
      · simp [elemAt] at hvv
        linarith
    · have hc : c = 0 ∨ c = 1 := by omega
      rcases hc with rfl | rfl
      · simp [elemAt] at hvv
        linarith
      · simpa [elemAt] using hvv
  rw [hv, e]

theorem tridiag_rowSum {α : Type} [LinearOrderedField α] (p q : α) :
    rowSum 3 1 1 [p, 2, -1, -1, 2, -1, -1, 2, q] 3 0 = 3 ∧
    rowSum 3 1 1 [p, 2, -1, -1, 2, -1, -1, 2, q] 3 1 = 4 ∧
    rowSum 3 1 1 [p, 2, -1, -1, 2, -1, -1, 2, q] 3 2 = 3 := by
  refine ⟨?_, ?_, ?_⟩ <;> rw [rowSum_range] <;> simp [Finset.sum_range_succ, elemAt] <;>
    norm_num

theorem tridiag_colSum {α : Type} [LinearOrderedField α] (p q : α) :
    colSum 3 1 1 [p, 2, -1, -1, 2, -1, -1, 2, q] 3 0 = 3 ∧
    colSum 3 1 1 [p, 2, -1, -1, 2, -1, -1, 2, q] 3 1 = 4 ∧
    colSum 3 1 1 [p, 2, -1, -1, 2, -1, -1, 2, q] 3 2 = 3 := by
  refine ⟨?_, ?_, ?_⟩ <;> rw [colSum_range] <;> simp [Finset.sum_range_succ, elemAt] <;>
    norm_num

theorem tridiag_maxRowSum {α : Type} [LinearOrderedField α] (p q : α) :
    caseMaxRowSum 3 1 1 [p, 2, -1, -1, 2, -1, -1, 2, q] 3 = .ok 4 := by
  obtain ⟨v, hv, hall, i, hi0, hin, hvv⟩ :=
    caseMaxRowSum_spec 3 1 1 [p, 2, -1, -1, 2, -1, -1, 2, q] 3 (by decide) (by decide)
      (by decide) (by decide) (by simp)
  obtain ⟨r0, r1, r2⟩ := tridiag_rowSum p q
  have h4 := hall 1 (by decide) (by decide)
  rw [r1] at h4
  have e : v = 4 := by
    have hi : i = 0 ∨ i = 1 ∨ i = 2 := by omega
    rcases hi with rfl | rfl | rfl
    · rw [r0] at hvv; linarith
    · rw [r1] at hvv; exact hvv
    · rw [r2] at hvv; linarith
  rw [hv, e]

theorem tridiag_maxColumnSum {α : Type} [LinearOrderedField α] (p q : α) (work : List α)
    (hw : (3 : Int) ≤ (work.length : Int)) :
    ∃ w, caseMaxColumnSum 3 1 1 [p, 2, -1, -1, 2, -1, -1, 2, q] 3 work = .ok (4, w) := by
  obtain ⟨w, hw', hl, hget⟩ :=
    caseMaxColumnSum_spec 3 1 1 [p, 2, -1, -1, 2, -1, -1, 2, q] 3 work (by decide)
      (by decide) (by decide) (by decide) (by simp) hw
  obtain ⟨hall, j, hj0, hjn, hvv⟩ :=
    maxColumnSum_value 3 1 1 [p, 2, -1, -1, 2, -1, -1, 2, q] 3 w (by decide) hl hget
  obtain ⟨c0, c1, c2⟩ := tridiag_colSum p q
  have h4 := hall 1 (by decide) (by decide)
  rw [c1] at h4
  have e : w.foldl updMax 0 = 4 := by
    have hj : j = 0 ∨ j = 1 ∨ j = 2 := by omega
    rcases hj with rfl | rfl | rfl
    · rw [c0] at hvv; linarith
    · rw [c1] at hvv; exact hvv
    · rw [c2] at hvv; linarith
  exact ⟨_, by rw [hw', e]⟩

theorem tridiag_frobenius {α : Type} [LinearOrderedField α] (impl : Implementation α)
    (p q : α) (hq : DlassqContract impl) (hc : DcombssqContract impl)
    (hs : SqrtContract impl) :
    caseFrobenius impl 3 1 1 [p, 2, -1, -1, 2, -1, -1, 2, q] 3 = .ok 4 := by
  obtain ⟨v, hv, hv0, hvs⟩ :=
    caseFrobenius_spec impl 3 1 1 [p, 2, -1, -1, 2, -1, -1, 2, q] 3 (by decide) (by decide)
      (by decide) (by simp) hq hc hs
  have hb : bandSumSq 3 1 1 [p, 2, -1, -1, 2, -1, -1, 2, q] 3 = (4 : α) ^ 2 := by
    rw [bandSumSq_range]
    simp [Finset.sum_range_succ, elemAt]
    norm_num
  rw [hb] at hvs
  rw [hv, eq_of_sq_eq_sq_nonneg v 4 hv0 (by norm_num) hvs]

theorem single_maxAbs {α : Type} [LinearOrderedField α] (x : α) (ldab : Int)
    (hld : 1 ≤ ldab) : caseMaxAbs 1 0 0 [x] ldab = .ok |x| := by
  obtain ⟨v, hv, _, i, c, hi0, hin, hl, hu, hvv⟩ :=
    caseMaxAbs_spec 1 0 0 [x] ldab (by decide) (by decide) (by decide) (by omega) (by simp)
  simp only [bandLower, bandUpper] at hl hu
  have hi : i = 0 := by omega
  subst hi
  have hc : c = 0 := by omega
  subst hc
  simp [elemAt] at hvv
  rw [hv, hvv]

theorem single_maxRowSum {α : Type} [LinearOrderedField α] (x : α) (ldab : Int)
    (hld : 1 ≤ ldab) : caseMaxRowSum 1 0 0 [x] ldab = .ok |x| := by
  obtain ⟨v, hv, _, i, hi0, hin, hvv⟩ :=
    caseMaxRowSum_spec 1 0 0 [x] ldab (by decide) (by decide) (by decide) (by omega) (by simp)
  have hi : i = 0 := by omega
  subst hi
  rw [rowSum_range] at hvv
  simp [Finset.sum_range_succ, elemAt] at hvv
  rw [hv, hvv]

theorem single_maxColumnSum {α : Type} [LinearOrderedField α] (x : α) (ldab : Int)
    (work : List α) (hld : 1 ≤ ldab) (hw : (1 : Int) ≤ (work.length : Int)) :
    ∃ w, caseMaxColumnSum 1 0 0 [x] ldab work = .ok (|x|, w) := by
  obtain ⟨w, hw', hl, hget⟩ :=
    caseMaxColumnSum_spec 1 0 0 [x] ldab work (by decide) (by decide) (by decide) (by omega)
      (by simp) hw
  obtain ⟨_, j, hj0, hjn, hvv⟩ := maxColumnSum_value 1 0 0 [x] ldab w (by decide) hl hget
  have hj : j = 0 := by omega
  subst hj
  rw [colSum_range] at hvv
  simp [Finset.sum_range_succ, elemAt] at hvv
  exact ⟨_, by rw [hw', hvv]⟩

theorem single_frobenius {α : Type} [LinearOrderedField α] (impl : Implementation α)
    (x : α) (ldab : Int) (hld : 1 ≤ ldab) (hq : DlassqContract impl)
    (hc : DcombssqContract impl) (hs : SqrtContract impl) :
    caseFrobenius impl 1 0 0 [x] ldab = .ok |x| := by
  obtain ⟨v, hv, hv0, hvs⟩ :=
    caseFrobenius_spec impl 1 0 0 [x] ldab (by decide) (by decide) (by omega) (by simp)
      hq hc hs
  have hb : bandSumSq 1 0 0 [x] ldab = |x| ^ 2 := by
    rw [bandSumSq_range]
    simp [Finset.sum_range_succ, elemAt]
  rw [hb] at hvs
  rw [hv, eq_of_sq_eq_sq_nonneg v |x| hv0 (abs_nonneg x) hvs]

/-! ## Non-negativity with arbitrary padding -/

theorem foldlM_sim {σ τ β : Type} (f : σ → τ) (I : σ → Prop)
    (body : σ → β → Except PanicMsg σ) (body' : τ → β → Except PanicMsg τ) (L : List β)
    (h : ∀ b ∈ L, ∀ s, I s →
      body' (f s) b = (body s b).map f ∧ ∀ s', body s b = .ok s' → I s')
    (s0 : σ) (h0 : I s0) :
    L.foldlM body' (f s0) = (L.foldlM body s0).map f ∧
      ∀ s, L.foldlM body s0 = .ok s → I s := by
  induction L generalizing s0 with
  | nil =>
    refine ⟨rfl, ?_⟩
    intro s hs
    cases hs
    exact h0
  | cons b t ih =>
    obtain ⟨h1, h2⟩ := h b (List.mem_cons_self _ _) s0 h0
    rw [List.foldlM_cons, List.foldlM_cons, h1]
    cases hb : body s0 b with
    | error e =>
      refine ⟨rfl, ?_⟩
      intro s hs
      cases hs
    | ok s' =>
      exact ih (fun c hc => h c (List.mem_cons_of_mem _ hc)) s' (h2 s' hb)

theorem forRows_sim {σ τ : Type} (f : σ → τ) (I : σ → Prop) (n : Int)
    (body : Int → σ → Except PanicMsg σ) (body' : Int → τ → Except PanicMsg τ)
    (h : ∀ (i : Nat) (s : σ), (i : Int) < n → I s →
      body' (i : Int) (f s) = (body (i : Int) s).map f ∧
        ∀ s', body (i : Int) s = .ok s' → I s')
    (s0 : σ) (h0 : I s0) :
    forRows n body' (f s0) = (forRows n body s0).map f ∧
      ∀ s, forRows n body s0 = .ok s → I s := by
  unfold forRows
  exact foldlM_sim f I (fun s (i : Nat) => body (i : Int) s)
    (fun t (i : Nat) => body' (i : Int) t) (List.range n.toNat)
    (fun i hi s hs => h i s (by have := List.mem_range.mp hi; omega) hs) s0 h0

theorem storeAdd_sim {F : Type} [FloatOps F] (n : Int) (ab rest w : List F) (j : Int)
    (x : F) (hn : 0 ≤ n) (hw : w.length = n.toNat) :
    storeAdd n ⟨ab, w ++ rest⟩ j x =
      (addAt w j x).map (fun w' => (⟨ab, w' ++ rest⟩ : Buffers F)) ∧
      ∀ w', addAt w j x = .ok w' → w'.length = n.toNat := by
  unfold storeAdd addAt
  by_cases h0 : 0 ≤ j
  · by_cases h1 : j < n
    · have hlt : j.toNat < w.length := by omega
      rw [if_pos ⟨h0, h1⟩, if_pos h0]
      simp only [List.getElem?_append_left hlt, List.getElem?_eq_getElem hlt]
      refine ⟨?_, ?_⟩
      · show Except.ok _ = Except.ok _
        rw [List.set_append_left _ _ hlt]
      · intro w' hw'
        cases hw'
        rw [List.length_set, hw]
    · rw [if_neg (fun h => h1 h.2), if_pos h0,
        List.getElem?_eq_none (by omega : w.length ≤ j.toNat)]
      exact ⟨rfl, (fun w' hw' => by cases hw')⟩
  · rw [if_neg (fun h => h0 h.1), if_neg h0]
    exact ⟨rfl, (fun w' hw' => by cases hw')⟩

theorem colSumRowMem_sim {F : Type} [FloatOps F] (n l kl i : Int) (ab rest : List F)
    (row w : List F) (hn : 0 ≤ n) (hw : w.length = n.toNat) :
    colSumRowMem n l kl i row ⟨ab, w ++ rest⟩ =
      (colSumRow l kl i row w).map (fun w' => (⟨ab, w' ++ rest⟩ : Buffers F)) ∧
      ∀ w', colSumRow l kl i row w = .ok w' → w'.length = n.toNat := by
  unfold colSumRowMem colSumRow
  exact foldlM_sim (fun w' => (⟨ab, w' ++ rest⟩ : Buffers F)) (fun w' => w'.length = n.toNat)
    (fun work (p : Nat × F) => addAt work (colIndex l (p.1 : Int) kl i) (FloatOps.abs p.2))
    (fun m (p : Nat × F) => storeAdd n m (colIndex l (p.1 : Int) kl i) (FloatOps.abs p.2))
    row.enum
    (fun p _ s hs => storeAdd_sim n ab rest s _ _ hn hs) w hw

theorem map_map_except {α β γ : Type} (f : α → β) (g : β → γ) (x : Except PanicMsg α) :
    (x.map f).map g = x.map (fun a => g (f a)) := by
  cases x <;> rfl

theorem normSwitchMem_eq {F : Type} [FloatOps F] (impl : Implementation F)
    (norm : MatrixNorm) (n kl ku : Int) (ldab : Int) (ab work : List F) (hn : 0 ≤ n) :
    normSwitchMem impl norm n kl ku ldab ⟨ab, work⟩ =
      (normSwitch impl norm n kl ku ab ldab work).map
        (fun r => (r.1, (⟨ab, r.2⟩ : Buffers F))) := by
  cases norm with
  | MaxAbs =>
    have h := (forRows_sim (fun v : F => (v, (⟨ab, work⟩ : Buffers F))) (fun _ => True) n
      (fun i value => (slice ab (i * ldab + bandLower kl i)
        (i * ldab + bandUpper n kl ku i)).map (fun row => maxAbsRow value row))
      (fun i (st : F × Buffers F) => (slice st.2.ab (i * ldab + bandLower kl i)
        (i * ldab + bandUpper n kl ku i)).map (fun row => (maxAbsRow st.1 row, st.2)))
      (fun i s _ _ => ⟨(by rw [map_map_except]), (fun _ _ => trivial)⟩)
      FloatOps.zero trivial).1
    show _ = Except.map _ (Except.map _ (caseMaxAbs n kl ku ab ldab))
    rw [map_map_except]
    exact h
  | MaxRowSum =>
    have h := (forRows_sim (fun v : F => (v, (⟨ab, work⟩ : Buffers F))) (fun _ => True) n
      (fun i value => (slice ab (i * ldab + bandLower kl i)
        (i * ldab + bandUpper n kl ku i)).map (fun row => updMax value (L1Norm row)))
      (fun i (st : F × Buffers F) => (slice st.2.ab (i * ldab + bandLower kl i)
        (i * ldab + bandUpper n kl ku i)).map (fun row => (updMax st.1 (L1Norm row), st.2)))
      (fun i s _ _ => ⟨(by rw [map_map_except]), (fun _ _ => trivial)⟩)
      FloatOps.zero trivial).1
    show _ = Except.map _ (Except.map _ (caseMaxRowSum n kl ku ab ldab))
    rw [map_map_except]
    exact h
  | MaxColumnSum =>
    show (slice work 0 n).bind _ = Except.map _ (caseMaxColumnSum n kl ku ab ldab work)
    unfold caseMaxColumnSum
    cases hs : slice work 0 n with
    | error e => rfl
    | ok w0 =>
      have hwl : n ≤ (work.length : Int) := by
        unfold slice at hs
        by_contra hc
        rw [if_neg (fun h => hc h.2.2)] at hs
        cases hs
      have hw0 : w0 = work.take n.toNat := by
        rw [slice_zero work n hn hwl] at hs
        exact (Except.ok.inj hs).symm
      subst hw0
      obtain ⟨h1, h2⟩ := forRows_sim
        (fun w => (⟨ab, w ++ work.drop n.toNat⟩ : Buffers F)) (fun w => w.length = n.toNat) n
        (fun i w => (slice ab (i * ldab + bandLower kl i)
          (i * ldab + bandUpper n kl ku i)).bind
            (fun row => colSumRow (bandLower kl i) kl i row w))
        (fun i (m : Buffers F) => (slice m.ab (i * ldab + bandLower kl i)
          (i * ldab + bandUpper n kl ku i)).bind
            (fun row => colSumRowMem n (bandLower kl i) kl i row m))
        (by
          intro i w _ hw
          beta_reduce
          cases hrow : slice ab ((i : Int) * ldab + bandLower kl i)
              ((i : Int) * ldab + bandUpper n kl ku i) with
          | error e => exact ⟨rfl, (fun _ h => by cases h)⟩
          | ok row =>
            exact colSumRowMem_sim n (bandLower kl i) kl i ab (work.drop n.toNat) row w hn hw)
        ((work.take n.toNat).map (fun _ => (FloatOps.zero : F))) (by simp; omega)
      show Except.map _ (forRows n _ _) = Except.map _ (Except.map _ (forRows n _ _))
      rw [h1, map_map_except, map_map_except]
      cases hr : forRows n (fun i w => (slice ab (i * ldab + bandLower kl i)
          (i * ldab + bandUpper n kl ku i)).bind
            (fun row => colSumRow (bandLower kl i) kl i row w))
          ((work.take n.toNat).map (fun _ => (FloatOps.zero : F))) with
      | error e => rfl
      | ok w =>
        have hl := h2 w hr
        show Except.ok _ = Except.ok _
        simp only [List.take_left' hl]
  | Frobenius =>
    have h := (forRows_sim (fun acc : F × F => (acc, (⟨ab, work⟩ : Buffers F)))
      (fun _ => True) n
      (fun i (acc : F × F) =>
        (sliceFrom ab (i * ldab + bandLower kl i)).bind (fun x =>
          (impl.Dlassq (bandUpper n kl ku i - bandLower kl i) x 1 FloatOps.zero
            FloatOps.one).map (fun r => impl.Dcombssq acc.1 acc.2 r.1 r.2)))
      (fun i (st : (F × F) × Buffers F) =>
        (sliceFrom st.2.ab (i * ldab + bandLower kl i)).bind (fun x =>
          (impl.Dlassq (bandUpper n kl ku i - bandLower kl i) x 1 FloatOps.zero
            FloatOps.one).map (fun r => (impl.Dcombssq st.1.1 st.1.2 r.1 r.2, st.2))))
      (by
        intro i s _ _
        refine ⟨?_, fun _ _ => trivial⟩
        beta_reduce
        cases sliceFrom ab ((i : Int) * ldab + bandLower kl i) with
        | error e => rfl
        | ok x =>
          show Except.map _ _ = Except.map _ (Except.map _ _)
          rw [map_map_except])
      (FloatOps.zero, FloatOps.one) trivial).1
    show Except.map _ (forRows n _ _) =
      Except.map _ (Except.map _ (caseFrobenius impl n kl ku ab ldab))
    unfold caseFrobenius
    rw [h, map_map_except, map_map_except, map_map_except]
  | Other code => rfl

theorem DlangbMem_eq {F : Type} [FloatOps F] (impl : Implementation F)
    (norm : MatrixNorm) (n kl ku : Int) (ldab : Int) (m : Buffers F) :
    DlangbMem impl norm n kl ku ldab m =
      (Dlangb impl norm n kl ku m.ab ldab m.work).map
        (fun r => (r.1, (⟨m.ab, r.2⟩ : Buffers F))) := by
  unfold DlangbMem Dlangb
  simp only []
  split_ifs with g1 g2 g3 g4 g5 g6 g7 g8
  · rfl
  · rfl
  · rfl
  · rfl
  · rfl
  · rfl
  · rfl
  · rfl
  · exact normSwitchMem_eq impl norm n kl ku ldab m.ab m.work (by omega)

theorem Dlangb_work_frame {F : Type} [FloatOps F] (impl : Implementation F)
    (norm : MatrixNorm) (n kl ku : Int) (ab : List F) (ldab : Int) (work : List F)
    (v : F) (w' : List F) (h : Dlangb impl norm n kl ku ab ldab work = .ok (v, w')) :
    (norm = .MaxAbs ∨ norm = .MaxRowSum ∨ norm = .Frobenius → w' = work) ∧
    (norm = .MaxColumnSum →
      w'.length = work.length ∧ ∀ k : Nat, n ≤ (k : Int) → w'[k]? = work[k]?) := by
  have hv : Valid norm n kl ku ab ldab work := by
    by_contra hc
    obtain ⟨e, he⟩ := Dlangb_error_of_not_valid impl norm n kl ku ab ldab work hc
    rw [he] at h
    cases h
  obtain ⟨h1, h2, h3, h4, h5, h6, h7⟩ := id hv
  rcases eq_or_lt_of_le h2 with hn | hn
  · subst hn
    rw [Dlangb_n_zero impl norm kl ku ab ldab work h1 h3 h4 h5] at h
    have e : w' = work := (congrArg Prod.snd (Except.ok.inj h)).symm
    subst e
    exact ⟨(fun _ => rfl), (fun _ => ⟨rfl, (fun _ _ => rfl)⟩)⟩
  · rw [Dlangb_of_valid impl norm n kl ku ab ldab work hv hn] at h
    have three : ∀ c : Except PanicMsg F,
        c.map (fun value => (value, work)) = .ok (v, w') → w' = work := by
      intro c hc
      cases c with
      | error e => cases hc
      | ok x => exact (congrArg Prod.snd (Except.ok.inj hc)).symm
    rcases h1 with hh | hh | hh | hh <;> subst hh
    · exact ⟨(fun _ => three _ h), (fun hc => by cases hc)⟩
    · exact ⟨(fun _ => three _ h), (fun hc => by cases hc)⟩
    · refine ⟨(fun hc => by rcases hc with hc | hc | hc <;> cases hc), (fun _ => ?_)⟩
      obtain ⟨w, hw, hl⟩ := caseMaxColumnSum_ok n kl ku ab ldab work h2 h3 h4 h5 h6 (h7 rfl)
      have hh : normSwitch impl .MaxColumnSum n kl ku ab ldab work =
          caseMaxColumnSum n kl ku ab ldab work := rfl
      rw [hh, hw] at h
      have e : w' = w ++ work.drop n.toNat := (congrArg Prod.snd (Except.ok.inj h)).symm
      subst e
      have hwl := h7 rfl
      refine ⟨by rw [List.length_append, List.length_drop, hl]; omega, ?_⟩
      intro k hk
      rw [List.getElem?_append_right (by omega), List.getElem?_drop, hl]
      congr 1
      omega
    · exact ⟨(fun _ => three _ h), (fun hc => by cases hc)⟩

/-! ## The claims -/

/-- C1. Band-range resolver exactness.  With `l = max(0, kl-i)` and
`u = min(n+kl-i, kl+1+ku)`, a storage column `0 ≤ c < kl+1+ku` lies in `[l, u)` if
and only if its logical column `c - kl + i` lies in `[0, n)`; the map
`c ↦ c - kl + i` is a bijection from `[l, u)` onto the logical columns
`0 ≤ j < n` with `i-kl ≤ j ≤ i+ku`; and for every offset `0 ≤ jb < u-l` the index
`j = l + jb - kl + i` of the `MaxColumnSum` loop is the logical column of the
entry at `i*ldab + l + jb`, which is the band position `i*ldab + kl + j - i`.
This holds for all integers, in particular for `n > 0`, `kl, ku ≥ 0`, `0 ≤ i < n`. -/
theorem C1_band_range_exact (n kl ku i : Int) :
    bandLower kl i = max 0 (kl - i) ∧ bandUpper n kl ku i = min (n + kl - i) (kl + 1 + ku) ∧
    (∀ c, 0 ≤ c → c < kl + 1 + ku →
      ((bandLower kl i ≤ c ∧ c < bandUpper n kl ku i) ↔ (0 ≤ c - kl + i ∧ c - kl + i < n))) ∧
    Set.BijOn (fun c => c - kl + i) (Set.Ico (bandLower kl i) (bandUpper n kl ku i))
      {j | 0 ≤ j ∧ j < n ∧ i - kl ≤ j ∧ j ≤ i + ku} ∧
    (∀ jb ldab, 0 ≤ jb → jb < bandUpper n kl ku i - bandLower kl i →
      colIndex (bandLower kl i) jb kl i = (bandLower kl i + jb) - kl + i ∧
      i * ldab + bandLower kl i + jb = i * ldab + kl + colIndex (bandLower kl i) jb kl i - i ∧
      0 ≤ colIndex (bandLower kl i) jb kl i ∧ colIndex (bandLower kl i) jb kl i < n ∧
      i - kl ≤ colIndex (bandLower kl i) jb kl i ∧
      colIndex (bandLower kl i) jb kl i ≤ i + ku) := by
  refine ⟨rfl, rfl, ?_, ?_, ?_⟩
  · intro c h0 h1
    unfold bandLower bandUpper
    omega
  · unfold bandLower bandUpper
    refine ⟨?_, ?_, ?_⟩
    · intro c hc
      simp only [Set.mem_Ico] at hc
      simp only [Set.mem_setOf_eq]
      omega
    · intro a _ b _ hab
      simp only [] at hab
      omega
    · intro j hj
      simp only [Set.mem_setOf_eq] at hj
      refine ⟨j + kl - i, ?_, ?_⟩
      · simp only [Set.mem_Ico]
        omega
      · simp only []
        omega
  · intro jb ldab h0 h1
    unfold colIndex bandLower bandUpper at *
    omega

/-- A concrete instance of C1: row `1` of a `3×3` tridiagonal band. -/
theorem C1_band_range_exact_witness :
    bandLower 1 1 = 0 ∧ bandUpper 3 1 1 1 = 3 ∧ colIndex (bandLower 1 1) 2 1 1 = 2 := by
  have h := C1_band_range_exact 3 1 1 1
  refine ⟨by rw [h.1]; decide, by rw [h.2.1]; decide, ?_⟩
  have h2 := (h.2.2.2.2 2 3 (by decide) (by rw [h.1, h.2.1]; decide)).1
  rw [h2, h.1]
  decide

/-- C2. `MaxColumnSum` equals its reference definition: on every validated
input with `n > 0` over an ordered field, and for every initial content of
`work`, `Dlangb` returns the maximum over the columns `0 ≤ j < n` of the absolute
column sum `colSum j` of the logical band matrix. -/
theorem C2_maxColumnSum_eq_reference {α : Type} [LinearOrderedField α]
    (impl : Implementation α) (n kl ku : Int) (ab : List α) (ldab : Int) (work : List α)
    (hv : Valid .MaxColumnSum n kl ku ab ldab work) (hn : 0 < n) :
    ∃ v w, Dlangb impl .MaxColumnSum n kl ku ab ldab work = .ok (v, w) ∧
      (∀ j, 0 ≤ j → j < n → colSum n kl ku ab ldab j ≤ v) ∧
      (∃ j, 0 ≤ j ∧ j < n ∧ v = colSum n kl ku ab ldab j) := by
  obtain ⟨_, h2, h3, h4, h5, h6, h7⟩ := id hv
  obtain ⟨w, hw, hl, hget⟩ :=
    caseMaxColumnSum_spec n kl ku ab ldab work hn h3 h4 h5 h6 (h7 rfl)
  obtain ⟨g1, g2⟩ := maxColumnSum_value n kl ku ab ldab w hn hl hget
  refine ⟨w.foldl updMax 0, w ++ work.drop n.toNat, ?_, g1, g2⟩
  rw [Dlangb_of_valid impl _ n kl ku ab ldab work hv hn]
  exact hw

/-- A concrete instance of C2: the tridiagonal `3×3` matrix with stale workspace. -/
theorem C2_maxColumnSum_eq_reference_witness :
    ∃ v w, Dlangb (refImpl id) .MaxColumnSum 3 1 1
        ([99, 2, -1, -1, 2, -1, -1, 2, 77] : List ℚ) 3 [5, 5, 5, 5] = .ok (v, w) ∧
      (∀ j, 0 ≤ j → j < 3 →
        colSum 3 1 1 ([99, 2, -1, -1, 2, -1, -1, 2, 77] : List ℚ) 3 j ≤ v) ∧
      (∃ j, 0 ≤ j ∧ j < 3 ∧
        v = colSum 3 1 1 ([99, 2, -1, -1, 2, -1, -1, 2, 77] : List ℚ) 3 j) :=
  C2_maxColumnSum_eq_reference (refImpl id) 3 1 1 _ 3 _ (by decide) (by decide)

/-- C3. `MaxRowSum` equals its reference definition: on every validated input
with `n > 0` over an ordered field, with the row L1-sum the sum of absolute
values, `Dlangb` returns the maximum over the rows `0 ≤ i < n` of the absolute
row sum `rowSum i` of the logical band matrix. -/
theorem C3_maxRowSum_eq_reference {α : Type} [LinearOrderedField α]
    (impl : Implementation α) (n kl ku : Int) (ab : List α) (ldab : Int) (work : List α)
    (hv : Valid .MaxRowSum n kl ku ab ldab work) (hn : 0 < n) :
    ∃ v w, Dlangb impl .MaxRowSum n kl ku ab ldab work = .ok (v, w) ∧
      (∀ i, 0 ≤ i → i < n → rowSum n kl ku ab ldab i ≤ v) ∧
      (∃ i, 0 ≤ i ∧ i < n ∧ v = rowSum n kl ku ab ldab i) := by
  obtain ⟨_, h2, h3, h4, h5, h6, h7⟩ := id hv
  obtain ⟨v, hv', g1, g2⟩ := caseMaxRowSum_spec n kl ku ab ldab hn h3 h4 h5 h6
  refine ⟨v, work, ?_, g1, g2⟩
  rw [Dlangb_of_valid impl _ n kl ku ab ldab work hv hn]
  show Except.map _ (caseMaxRowSum n kl ku ab ldab) = _
  rw [hv']
  rfl

/-- A concrete instance of C3: the tridiagonal `3×3` matrix. -/
theorem C3_maxRowSum_eq_reference_witness :
    ∃ v w, Dlangb (refImpl id) .MaxRowSum 3 1 1
        ([99, 2, -1, -1, 2, -1, -1, 2, 77] : List ℚ) 3 [] = .ok (v, w) ∧
      (∀ i, 0 ≤ i → i < 3 →
        rowSum 3 1 1 ([99, 2, -1, -1, 2, -1, -1, 2, 77] : List ℚ) 3 i ≤ v) ∧
      (∃ i, 0 ≤ i ∧ i < 3 ∧
        v = rowSum 3 1 1 ([99, 2, -1, -1, 2, -1, -1, 2, 77] : List ℚ) 3 i) :=
  C3_maxRowSum_eq_reference (refImpl id) 3 1 1 _ 3 _ (by decide) (by decide)

/-- C4. `MaxAbs` equals its reference definition: on every validated input with
`n > 0` over an ordered field, `Dlangb` returns a value `v` with
`v ≥ |ab[i*ldab + c]|` for every row `0 ≤ i < n` and every storage column
`max(0, kl-i) ≤ c < min(n+kl-i, kl+1+ku)`, and `v = |ab[i*ldab + c]|` for at least
one such `(i, c)`. -/
theorem C4_maxAbs_eq_reference {α : Type} [LinearOrderedField α]
    (impl : Implementation α) (n kl ku : Int) (ab : List α) (ldab : Int) (work : List α)
    (hv : Valid .MaxAbs n kl ku ab ldab work) (hn : 0 < n) :
    ∃ v w, Dlangb impl .MaxAbs n kl ku ab ldab work = .ok (v, w) ∧
      (∀ i c, 0 ≤ i → i < n → max 0 (kl - i) ≤ c → c < min (n + kl - i) (kl + 1 + ku) →
        |elemAt ab (i * ldab + c)| ≤ v) ∧
      (∃ i c, 0 ≤ i ∧ i < n ∧ max 0 (kl - i) ≤ c ∧ c < min (n + kl - i) (kl + 1 + ku) ∧
        v = |elemAt ab (i * ldab + c)|) := by
  obtain ⟨_, h2, h3, h4, h5, h6, h7⟩ := id hv
  obtain ⟨v, hv', g1, g2⟩ := caseMaxAbs_spec n kl ku ab ldab hn h3 h4 h5 h6
  refine ⟨v, work, ?_, g1, g2⟩
  rw [Dlangb_of_valid impl _ n kl ku ab ldab work hv hn]
  show Except.map _ (caseMaxAbs n kl ku ab ldab) = _
  rw [hv']
  rfl

/-- A concrete instance of C4: the tridiagonal `3×3` matrix. -/
theorem C4_maxAbs_eq_reference_witness :
    ∃ v w, Dlangb (refImpl id) .MaxAbs 3 1 1
        ([99, 2, -1, -1, 2, -1, -1, 2, 77] : List ℚ) 3 [] = .ok (v, w) ∧
      (∀ i c, 0 ≤ i → i < 3 → max 0 (1 - i) ≤ c → c < min (3 + 1 - i) (1 + 1 + 1) →
        |elemAt ([99, 2, -1, -1, 2, -1, -1, 2, 77] : List ℚ) (i * 3 + c)| ≤ v) ∧
      (∃ i c, 0 ≤ i ∧ i < 3 ∧ max 0 (1 - i) ≤ c ∧ c < min (3 + 1 - i) (1 + 1 + 1) ∧
        v = |elemAt ([99, 2, -1, -1, 2, -1, -1, 2, 77] : List ℚ) (i * 3 + c)|) :=
  C4_maxAbs_eq_reference (refImpl id) 3 1 1 _ 3 _ (by decide) (by decide)

/-- C5. Frobenius equals its reference definition: on every validated input
with `n > 0` over an ordered field (in particular the reals), when `Dlassq`,
`Dcombssq` and `math.Sqrt` satisfy their contracts, the value `scale * sqrt(ssq)`
returned by `Dlangb` is non-negative and its square is the sum of
`ab[i*ldab + c]^2` over every row `0 ≤ i < n` and every storage column
`max(0, kl-i) ≤ c < min(n+kl-i, kl+1+ku)`. -/
theorem C5_frobenius_eq_reference {α : Type} [LinearOrderedField α]
    (impl : Implementation α) (n kl ku : Int) (ab : List α) (ldab : Int) (work : List α)
    (hv : Valid .Frobenius n kl ku ab ldab work) (hn : 0 < n)
    (hq : DlassqContract impl) (hc : DcombssqContract impl) (hs : SqrtContract impl) :
    ∃ v w, Dlangb impl .Frobenius n kl ku ab ldab work = .ok (v, w) ∧ 0 ≤ v ∧
      v ^ 2 = bandSumSq n kl ku ab ldab := by
  obtain ⟨_, h2, h3, h4, h5, h6, h7⟩ := id hv
  obtain ⟨v, hv', g1, g2⟩ := caseFrobenius_spec impl n kl ku ab ldab h3 h4 h5 h6 hq hc hs
  refine ⟨v, work, ?_, g1, g2⟩
  rw [Dlangb_of_valid impl _ n kl ku ab ldab work hv hn]
  show Except.map _ (caseFrobenius impl n kl ku ab ldab) = _
  rw [hv']
  rfl

/-- A concrete instance of C5 over the reals, with the reference `Dlassq` and
`Dcombssq` and the real square root. -/
theorem C5_frobenius_eq_reference_witness :
    ∃ v w, Dlangb (refImpl Real.sqrt) .Frobenius 3 1 1
        ([99, 2, -1, -1, 2, -1, -1, 2, 77] : List ℝ) 3 [] = .ok (v, w) ∧ 0 ≤ v ∧
      v ^ 2 = bandSumSq 3 1 1 ([99, 2, -1, -1, 2, -1, -1, 2, 77] : List ℝ) 3 :=
  C5_frobenius_eq_reference (refImpl Real.sqrt) 3 1 1 _ 3 _ (by decide) (by decide)
    (refDlassq_contract _) (refDcombssq_contract _) realSqrt_contract

/-- C6. Padding independence: for every norm kind, two buffers of equal length
that pass validation with the same `(n, kl, ku, ldab)` and agree at every band
position `i*ldab + c`, `0 ≤ i < n`, `max(0, kl-i) ≤ c < min(n+kl-i, kl+1+ku)`, give
the same result of `Dlangb` (for Frobenius, with `Dlassq`, `Dcombssq` and
`math.Sqrt` satisfying their contracts). -/
theorem C6_padding_independence {α : Type} [LinearOrderedField α]
    (impl : Implementation α) (norm : MatrixNorm) (n kl ku : Int) (ab ab' : List α)
    (ldab : Int) (work : List α) (hlen : ab.length = ab'.length)
    (hv : Valid norm n kl ku ab ldab work)
    (hq : norm = .Frobenius →
      DlassqContract impl ∧ DcombssqContract impl ∧ SqrtContract impl)
    (hagree : ∀ i c, 0 ≤ i → i < n → max 0 (kl - i) ≤ c →
      c < min (n + kl - i) (kl + 1 + ku) →
      elemAt ab (i * ldab + c) = elemAt ab' (i * ldab + c)) :
    ∃ r, Dlangb impl norm n kl ku ab ldab work = .ok r ∧
      Dlangb impl norm n kl ku ab' ldab work = .ok r := by
  obtain ⟨h1, h2, h3, h4, h5, h6, h7⟩ := id hv
  have hv' : Valid norm n kl ku ab' ldab work := ⟨h1, h2, h3, h4, h5, hlen ▸ h6, h7⟩
  rcases eq_or_lt_of_le h2 with hn | hn
  · subst hn
    exact ⟨_, Dlangb_n_zero impl norm kl ku ab ldab work h1 h3 h4 h5,
      Dlangb_n_zero impl norm kl ku ab' ldab work h1 h3 h4 h5⟩
  · have hsw := normSwitch_congr impl norm n kl ku ab ab' ldab work h3 h4 h5 h6
      (hlen ▸ h6) hq hagree
    have hok : ∃ r, Dlangb impl norm n kl ku ab ldab work = .ok r := by
      by_cases hF : norm = .Frobenius
      · subst hF
        obtain ⟨c1, c2, c3⟩ := hq rfl
        obtain ⟨v, hv0, _⟩ := caseFrobenius_spec impl n kl ku ab ldab h3 h4 h5 h6 c1 c2 c3
        refine ⟨(v, work), ?_⟩
        rw [Dlangb_of_valid impl _ n kl ku ab ldab work hv hn]
        show Except.map _ (caseFrobenius impl n kl ku ab ldab) = _
        rw [hv0]
        rfl
      · exact Dlangb_ok_of_valid impl norm n kl ku ab ldab work hv (fun h => absurd h hF)
    obtain ⟨r, hr⟩ := hok
    refine ⟨r, hr, ?_⟩
    rw [Dlangb_of_valid impl _ n kl ku ab' ldab work hv' hn, ← hsw,
      ← Dlangb_of_valid impl _ n kl ku ab ldab work hv hn]
    exact hr

/-- A concrete instance of C6 over the reals: two tridiagonal buffers that
differ only in their two padding entries, for the Frobenius norm. -/
theorem C6_padding_independence_witness :
    ∃ r, Dlangb (refImpl Real.sqrt) .Frobenius 3 1 1
        ([99, 2, -1, -1, 2, -1, -1, 2, 77] : List ℝ) 3 [] = .ok r ∧
      Dlangb (refImpl Real.sqrt) .Frobenius 3 1 1
        ([0, 2, -1, -1, 2, -1, -1, 2, 5] : List ℝ) 3 [] = .ok r :=
  C6_padding_independence (refImpl Real.sqrt) .Frobenius 3 1 1 _ _ 3 [] (by decide)
    (by decide)
    (fun _ => ⟨refDlassq_contract _, refDcombssq_contract _, realSqrt_contract⟩)
    (by
      intro i c h1 h2 h3 h4
      have hi : i = 0 ∨ i = 1 ∨ i = 2 := by omega
      rcases hi with rfl | rfl | rfl
      · have hc : c = 1 ∨ c = 2 := by
          simp only [sub_zero] at h3 h4
          omega
        rcases hc with rfl | rfl <;> simp [elemAt]
      · have hc : c = 0 ∨ c = 1 ∨ c = 2 := by omega
        rcases hc with rfl | rfl | rfl <;> simp [elemAt]
      · have hc : c = 0 ∨ c = 1 := by omega
        rcases hc with rfl | rfl <;> simp [elemAt])

/-- C7. Validation is raises-iff: over unbounded integers `Dlangb` panics if and
only if one of the listed conditions holds (an invalid norm kind, `n < 0`,
`kl < 0`, `ku < 0`, `ldab < kl+1+ku`, `len(ab) < (n-1)*ldab + kl+1+ku`, or
`norm == MaxColumnSum` with `len(work) < n`); in particular it never returns a
value, through the quick return or otherwise, when one of them holds.  For
Frobenius the routine `Dlassq` is assumed defined on its domain. -/
theorem C7_panics_iff_invalid {F : Type} [FloatOps F] (impl : Implementation F)
    (norm : MatrixNorm) (n kl ku : Int) (ab : List F) (ldab : Int) (work : List F)
    (hq : norm = .Frobenius → DlassqDefined impl) :
    ((∃ e, Dlangb impl norm n kl ku ab ldab work = .error e) ↔
      ((norm ≠ .MaxAbs ∧ norm ≠ .MaxRowSum ∧ norm ≠ .MaxColumnSum ∧ norm ≠ .Frobenius) ∨
        n < 0 ∨ kl < 0 ∨ ku < 0 ∨ ldab < kl + 1 + ku ∨
        (ab.length : Int) < (n - 1) * ldab + (kl + 1 + ku) ∨
        (norm = .MaxColumnSum ∧ (work.length : Int) < n))) ∧
    (((norm ≠ .MaxAbs ∧ norm ≠ .MaxRowSum ∧ norm ≠ .MaxColumnSum ∧ norm ≠ .Frobenius) ∨
        n < 0 ∨ kl < 0 ∨ ku < 0 ∨ ldab < kl + 1 + ku ∨
        (ab.length : Int) < (n - 1) * ldab + (kl + 1 + ku) ∨
        (norm = .MaxColumnSum ∧ (work.length : Int) < n)) →
      ∀ r, Dlangb impl norm n kl ku ab ldab work ≠ .ok r) := by
  constructor
  · rw [← not_valid_iff]
    constructor
    · rintro ⟨e, he⟩ hv
      obtain ⟨r, hr⟩ := Dlangb_ok_of_valid impl norm n kl ku ab ldab work hv hq
      rw [hr] at he
      cases he
    · exact Dlangb_error_of_not_valid impl norm n kl ku ab ldab work
  · intro h r hr
    obtain ⟨e, he⟩ := Dlangb_error_of_not_valid impl norm n kl ku ab ldab work
      ((not_valid_iff norm n kl ku ab ldab work).mpr h)
    rw [he] at hr
    cases hr

/-- A concrete instance of C7: with `n = 0` and an empty buffer no listed
condition holds and the call does not panic. -/
theorem C7_panics_iff_invalid_witness :
    ¬ ∃ e, Dlangb (refImpl id) .Frobenius 0 1 1 ([] : List ℚ) 3 [] = .error e := by
  rw [(C7_panics_iff_invalid (refImpl id) .Frobenius 0 1 1 ([] : List ℚ) 3 []
    (fun _ => refDlassq_defined _)).1]
  decide

/-- C8. The accumulators never fail on validated input: for every row
`0 ≤ i < n` (so `n > 0`) the bounds `l = max(0, kl-i)`, `u = min(n+kl-i, kl+1+ku)` satisfy
`0 ≤ l < u ≤ kl+1+ku` and `i*ldab + u ≤ len(ab)`, the slice
`ab[i*ldab+l : i*ldab+u]` is in bounds and non-empty, in the `MaxColumnSum` mode
every index `j = l + jb - kl + i` written to `work` satisfies
`0 ≤ j < n ≤ len(work)`, and `Dlangb` returns a value: the out-of-range branch is
unreachable for each norm kind (for Frobenius, `Dlassq` being defined on its
domain). -/
theorem C8_accumulators_never_fail {F : Type} [FloatOps F] (impl : Implementation F)
    (norm : MatrixNorm) (n kl ku : Int) (ab : List F) (ldab : Int) (work : List F)
    (hv : Valid norm n kl ku ab ldab work) (hq : norm = .Frobenius → DlassqDefined impl) :
    (∀ i, 0 ≤ i → i < n →
      0 ≤ bandLower kl i ∧ bandLower kl i < bandUpper n kl ku i ∧
      bandUpper n kl ku i ≤ kl + 1 + ku ∧
      i * ldab + bandUpper n kl ku i ≤ (ab.length : Int) ∧
      (∃ row, slice ab (i * ldab + bandLower kl i) (i * ldab + bandUpper n kl ku i) = .ok row ∧
        row ≠ []) ∧
      (∃ x, sliceFrom ab (i * ldab + bandLower kl i) = .ok x ∧
        bandUpper n kl ku i - bandLower kl i ≤ (x.length : Int)) ∧
      (norm = .MaxColumnSum →
        ∀ jb, 0 ≤ jb → jb < bandUpper n kl ku i - bandLower kl i →
          0 ≤ colIndex (bandLower kl i) jb kl i ∧ colIndex (bandLower kl i) jb kl i < n ∧
          n ≤ (work.length : Int))) ∧
    (∃ r, Dlangb impl norm n kl ku ab ldab work = .ok r) := by
  obtain ⟨h1, h2, h3, h4, h5, h6, h7⟩ := id hv
  refine ⟨?_, Dlangb_ok_of_valid impl norm n kl ku ab ldab work hv hq⟩
  intro i hi0 hin
  obtain ⟨b1, b2, b3, b4, b5⟩ := band_bounds n kl ku ldab _ i hi0 hin h3 h4 h5 h6
  obtain ⟨row, hrow, hrl⟩ := slice_band_ok n kl ku ab ldab i hi0 hin h3 h4 h5 h6
  refine ⟨b1, b2, b3, b5, ⟨row, hrow, ?_⟩, ?_, ?_⟩
  · intro he
    rw [he] at hrl
    simp only [List.length_nil, Nat.cast_zero] at hrl
    omega
  · refine ⟨ab.drop (i * ldab + bandLower kl i).toNat, ?_, ?_⟩
    · unfold sliceFrom
      rw [if_pos ⟨by omega, by omega⟩]
    · rw [List.length_drop]
      omega
  · intro hm jb hj0 hj1
    have hlu : bandLower kl i = max 0 (kl - i) := rfl
    have huu : bandUpper n kl ku i = min (n + kl - i) (kl + 1 + ku) := rfl
    have := h7 hm
    unfold colIndex
    omega

/-- A concrete instance of C8: the tridiagonal `3×3` matrix in `MaxColumnSum` mode. -/
theorem C8_accumulators_never_fail_witness :
    ∃ r, Dlangb (refImpl id) .MaxColumnSum 3 1 1
      ([99, 2, -1, -1, 2, -1, -1, 2, 77] : List ℚ) 3 [5, 5, 5] = .ok r :=
  (C8_accumulators_never_fail (refImpl id) .MaxColumnSum 3 1 1 _ 3 _ (by decide)
    (fun _ => refDlassq_defined _)).2

/-- C9. NaN propagation in the three max-type norms: over an ordered field
extended with NaN, on every validated input with `n > 0` in which at least one
band entry `ab[i*ldab + c]`, `0 ≤ i < n`, `max(0, kl-i) ≤ c < min(n+kl-i, kl+1+ku)`,
is NaN, `Dlangb` returns NaN for `MaxAbs`, `MaxRowSum` and `MaxColumnSum`. -/
theorem C9_nan_propagates {α : Type} [LinearOrderedField α]
    (impl : Implementation (NaNExt α)) (norm : MatrixNorm) (n kl ku : Int)
    (ab : List (NaNExt α)) (ldab : Int) (work : List (NaNExt α))
    (hnorm : norm = .MaxAbs ∨ norm = .MaxRowSum ∨ norm = .MaxColumnSum)
    (hv : Valid norm n kl ku ab ldab work) (hn : 0 < n)
    (hnan : ∃ i c, 0 ≤ i ∧ i < n ∧ max 0 (kl - i) ≤ c ∧
      c < min (n + kl - i) (kl + 1 + ku) ∧ elemAt ab (i * ldab + c) = NaNExt.nan) :
    ∃ w, Dlangb impl norm n kl ku ab ldab work = .ok (NaNExt.nan, w) := by
  obtain ⟨h1, h2, h3, h4, h5, h6, h7⟩ := id hv
  have hmem := nan_mem_rowOf n kl ku ab ldab hnan
  rw [Dlangb_of_valid impl norm n kl ku ab ldab work hv hn]
  rcases hnorm with h | h | h <;> subst h
  · refine ⟨work, ?_⟩
    show Except.map _ (caseMaxAbs n kl ku ab ldab) = _
    rw [caseMaxAbs_nan n kl ku ab ldab h3 h4 h5 h6 hmem]
    rfl
  · refine ⟨work, ?_⟩
    show Except.map _ (caseMaxRowSum n kl ku ab ldab) = _
    rw [caseMaxRowSum_nan n kl ku ab ldab h3 h4 h5 h6 hmem]
    rfl
  · exact caseMaxColumnSum_nan n kl ku ab ldab work h2 h3 h4 h5 h6 (h7 rfl) hmem

/-- A concrete instance of C9: a NaN on the first super-diagonal, followed by
larger finite entries. -/
theorem C9_nan_propagates_witness :
    ∃ w, Dlangb ⟨fun _ _ _ scale sumsq => .ok (scale, sumsq), fun scale ssq _ _ => (scale, ssq), id⟩
      .MaxColumnSum 3 1 1
      ([.val 99, .val 2, .nan, .val (-1), .val 2, .val (-1), .val (-1), .val 7, .val 77] :
        List (NaNExt ℚ)) 3 [.val 5, .val 5, .val 5] = .ok (NaNExt.nan, w) :=
  C9_nan_propagates _ .MaxColumnSum 3 1 1 _ 3 _ (by decide) (by decide) (by decide)
    ⟨0, 2, by decide, by decide, by decide, by decide, by rfl⟩

/-- C10. Quick return: for each of the four norm kinds, every `kl ≥ 0`, `ku ≥ 0`,
`ldab ≥ kl+1+ku` and every `ab` and `work` (including empty ones), the call with
`n = 0` does not panic and returns exactly `0`, leaving `work` as it was. -/
theorem C10_quick_return {F : Type} [FloatOps F] (impl : Implementation F)
    (norm : MatrixNorm) (kl ku : Int) (ab : List F) (ldab : Int) (work : List F)
    (hnorm : norm = .MaxAbs ∨ norm = .MaxRowSum ∨ norm = .MaxColumnSum ∨ norm = .Frobenius)
    (hkl : 0 ≤ kl) (hku : 0 ≤ ku) (hld : kl + 1 + ku ≤ ldab) :
    Dlangb impl norm 0 kl ku ab ldab work = .ok (FloatOps.zero, work) :=
  Dlangb_n_zero impl norm kl ku ab ldab work hnorm hkl hku hld

/-- A concrete instance of C10: empty buffers, `MaxColumnSum`. -/
theorem C10_quick_return_witness :
    Dlangb (refImpl id) .MaxColumnSum 0 2 3 ([] : List ℚ) 6 [] = .ok (0, []) :=
  C10_quick_return (refImpl id) .MaxColumnSum 2 3 [] 6 [] (by decide) (by decide)
    (by decide) (by decide)

/-- C13. Max-element domination: on every validated input with `n > 0` over an
ordered field, the value of `MaxAbs` is at most the value of `MaxRowSum` and at
most the value of `MaxColumnSum` on the same `(n, kl, ku, ab, ldab)`, for any
workspaces (that of `MaxColumnSum` of length at least `n`). -/
theorem C13_maxAbs_le_row_and_column_sum {α : Type} [LinearOrderedField α]
    (impl : Implementation α) (n kl ku : Int) (ab : List α) (ldab : Int)
    (worka workr workc : List α)
    (hv : Valid .MaxColumnSum n kl ku ab ldab workc) (hn : 0 < n) :
    ∃ va vr vc wa wr wc,
      Dlangb impl .MaxAbs n kl ku ab ldab worka = .ok (va, wa) ∧
      Dlangb impl .MaxRowSum n kl ku ab ldab workr = .ok (vr, wr) ∧
      Dlangb impl .MaxColumnSum n kl ku ab ldab workc = .ok (vc, wc) ∧
      va ≤ vr ∧ va ≤ vc := by
  obtain ⟨_, h2, h3, h4, h5, h6, h7⟩ := id hv
  obtain ⟨va, ha, _, i, c, hi0, hin, hl, hu, hva⟩ := caseMaxAbs_spec n kl ku ab ldab hn h3 h4 h5 h6
  obtain ⟨vr, hr, hr1, _⟩ := caseMaxRowSum_spec n kl ku ab ldab hn h3 h4 h5 h6
  obtain ⟨w, hw, hl', hget⟩ :=
    caseMaxColumnSum_spec n kl ku ab ldab workc hn h3 h4 h5 h6 (h7 rfl)
  obtain ⟨g1, _⟩ := maxColumnSum_value n kl ku ab ldab w hn hl' hget
  obtain ⟨j0, j1, hcol⟩ := band_term_le_colSum n kl ku ab ldab i c hi0 hin hl hu
  refine ⟨va, vr, w.foldl updMax 0, worka, workr, w ++ workc.drop n.toNat, ?_, ?_, ?_, ?_, ?_⟩
  · exact Dlangb_map_ok impl _ n kl ku ab ldab worka va _
      (valid_of_valid _ _ n kl ku ab ldab workc worka hv (Or.inl rfl)) hn rfl ha
  · exact Dlangb_map_ok impl _ n kl ku ab ldab workr vr _
      (valid_of_valid _ _ n kl ku ab ldab workc workr hv (Or.inr (Or.inl rfl))) hn rfl hr
  · rw [Dlangb_of_valid impl _ n kl ku ab ldab workc hv hn]
    exact hw
  · rw [hva]
    exact le_trans (band_term_le_rowSum n kl ku ab ldab i c hl hu) (hr1 i hi0 hin)
  · rw [hva]
    exact le_trans hcol (g1 _ j0 j1)

/-- A concrete instance of C13: the tridiagonal `3×3` matrix. -/
theorem C13_maxAbs_le_row_and_column_sum_witness :
    ∃ va vr vc wa wr wc,
      Dlangb (refImpl id) .MaxAbs 3 1 1
        ([99, 2, -1, -1, 2, -1, -1, 2, 77] : List ℚ) 3 [] = .ok (va, wa) ∧
      Dlangb (refImpl id) .MaxRowSum 3 1 1
        ([99, 2, -1, -1, 2, -1, -1, 2, 77] : List ℚ) 3 [] = .ok (vr, wr) ∧
      Dlangb (refImpl id) .MaxColumnSum 3 1 1
        ([99, 2, -1, -1, 2, -1, -1, 2, 77] : List ℚ) 3 [7, 7, 7] = .ok (vc, wc) ∧
      va ≤ vr ∧ va ≤ vc :=
  C13_maxAbs_le_row_and_column_sum (refImpl id) 3 1 1 _ 3 [] [] [7, 7, 7] (by decide)
    (by decide)

/-- C14. On every validated input with `n > 0` over an ordered field (in
particular the reals), with `Dlassq`, `Dcombssq` and `math.Sqrt` satisfying their
contracts, the value of `Frobenius` is at least the value of `MaxAbs` on the same
`(n, kl, ku, ab, ldab)`. -/
theorem C14_frobenius_ge_maxAbs {α : Type} [LinearOrderedField α]
    (impl : Implementation α) (n kl ku : Int) (ab : List α) (ldab : Int)
    (worka workf : List α)
    (hv : Valid .Frobenius n kl ku ab ldab workf) (hn : 0 < n)
    (hq : DlassqContract impl) (hc : DcombssqContract impl) (hs : SqrtContract impl) :
    ∃ va vf wa wf,
      Dlangb impl .MaxAbs n kl ku ab ldab worka = .ok (va, wa) ∧
      Dlangb impl .Frobenius n kl ku ab ldab workf = .ok (vf, wf) ∧ va ≤ vf := by
  obtain ⟨_, h2, h3, h4, h5, h6, h7⟩ := id hv
  obtain ⟨va, ha, _, i, c, hi0, hin, hl, hu, hva⟩ := caseMaxAbs_spec n kl ku ab ldab hn h3 h4 h5 h6
  obtain ⟨vf, hf, hf0, hfs⟩ := caseFrobenius_spec impl n kl ku ab ldab h3 h4 h5 h6 hq hc hs
  refine ⟨va, vf, worka, workf, ?_, ?_, ?_⟩
  · exact Dlangb_map_ok impl _ n kl ku ab ldab worka va _
      (valid_of_valid _ _ n kl ku ab ldab workf worka hv (Or.inl rfl)) hn rfl ha
  · exact Dlangb_map_ok impl _ n kl ku ab ldab workf vf _ hv hn rfl hf
  · rw [hva]
    apply abs_le_of_sq_le_sq _ hf0
    rw [hfs]
    exact band_sq_le_bandSumSq n kl ku ab ldab i c hi0 hin hl hu

/-- A concrete instance of C14 over the reals. -/
theorem C14_frobenius_ge_maxAbs_witness :
    ∃ va vf wa wf,
      Dlangb (refImpl Real.sqrt) .MaxAbs 3 1 1
        ([99, 2, -1, -1, 2, -1, -1, 2, 77] : List ℝ) 3 [] = .ok (va, wa) ∧
      Dlangb (refImpl Real.sqrt) .Frobenius 3 1 1
        ([99, 2, -1, -1, 2, -1, -1, 2, 77] : List ℝ) 3 [] = .ok (vf, wf) ∧ va ≤ vf :=
  C14_frobenius_ge_maxAbs (refImpl Real.sqrt) 3 1 1 _ 3 [] [] (by decide) (by decide)
    (refDlassq_contract _) (refDcombssq_contract _) realSqrt_contract

/-- C17. The workspace is zeroed before use: for every `(n, kl, ku, ab, ldab)`
passing validation and every two workspaces of length at least `n`, with
arbitrary contents, the two `MaxColumnSum` calls return the same value and leave
identical contents in positions `0..n-1` of the workspace (whose length is
unchanged).  This holds for every value type, NaN included. -/
theorem C17_workspace_zeroed {F : Type} [FloatOps F] (impl : Implementation F)
    (n kl ku : Int) (ab : List F) (ldab : Int) (work1 work2 : List F)
    (hv1 : Valid .MaxColumnSum n kl ku ab ldab work1)
    (hv2 : Valid .MaxColumnSum n kl ku ab ldab work2) :
    ∃ v w1 w2,
      Dlangb impl .MaxColumnSum n kl ku ab ldab work1 = .ok (v, w1) ∧
      Dlangb impl .MaxColumnSum n kl ku ab ldab work2 = .ok (v, w2) ∧
      w1.take n.toNat = w2.take n.toNat ∧
      w1.length = work1.length ∧ w2.length = work2.length := by
  obtain ⟨h1, h2, h3, h4, h5, h6, h7⟩ := id hv1
  have h8 := hv2.2.2.2.2.2.2 rfl
  rcases eq_or_lt_of_le h2 with hn | hn
  · subst hn
    exact ⟨FloatOps.zero, work1, work2,
      Dlangb_n_zero impl _ kl ku ab ldab work1 h1 h3 h4 h5,
      Dlangb_n_zero impl _ kl ku ab ldab work2 h1 h3 h4 h5, rfl, rfl, rfl⟩
  · obtain ⟨w, hl, e1, e2⟩ :=
      caseMaxColumnSum_two_works n kl ku ab ldab work1 work2 h2 h3 h4 h5 h6 (h7 rfl) h8
    refine ⟨w.foldl updMax FloatOps.zero, w ++ work1.drop n.toNat, w ++ work2.drop n.toNat,
      ?_, ?_, ?_, ?_, ?_⟩
    · rw [Dlangb_of_valid impl _ n kl ku ab ldab work1 hv1 hn]
      exact e1
    · rw [Dlangb_of_valid impl _ n kl ku ab ldab work2 hv2 hn]
      exact e2
    · rw [List.take_left' hl, List.take_left' hl]
    · rw [List.length_append, List.length_drop, hl]
      have := h7 rfl
      omega
    · rw [List.length_append, List.length_drop, hl]
      omega

/-- A concrete instance of C17: a fresh and a stale workspace, the stale one
holding NaN. -/
theorem C17_workspace_zeroed_witness :
    ∃ v w1 w2,
      Dlangb ⟨fun _ _ _ scale sumsq => .ok (scale, sumsq), fun scale ssq _ _ => (scale, ssq), id⟩
        .MaxColumnSum 3 1 1
        ([.val 99, .val 2, .val (-1), .val (-1), .val 2, .val (-1), .val (-1), .val 2, .val 77] :
          List (NaNExt ℚ)) 3 [.val 0, .val 0, .val 0] = .ok (v, w1) ∧
      Dlangb ⟨fun _ _ _ scale sumsq => .ok (scale, sumsq), fun scale ssq _ _ => (scale, ssq), id⟩
        .MaxColumnSum 3 1 1
        ([.val 99, .val 2, .val (-1), .val (-1), .val 2, .val (-1), .val (-1), .val 2, .val 77] :
          List (NaNExt ℚ)) 3 [.nan, .val 1000, .val (-5), .nan] = .ok (v, w2) ∧
      w1.take (3 : Int).toNat = w2.take (3 : Int).toNat ∧
      w1.length = 3 ∧ w2.length = 4 :=
  C17_workspace_zeroed _ 3 1 1 _ 3 _ _ (by decide) (by decide)

/-- C18. Zero matrix: on every validated input (any `n ≥ 0`, `kl`, `ku`, `ldab`)
over an ordered field in which every band entry `ab[i*ldab + c]`, `0 ≤ i < n`,
`max(0, kl-i) ≤ c < min(n+kl-i, kl+1+ku)`, is `0`, with arbitrary padding, `Dlangb`
returns `0` for each of the four norm kinds (for Frobenius with `Dlassq`,
`Dcombssq` and `math.Sqrt` satisfying their contracts). -/
theorem C18_zero_matrix {α : Type} [LinearOrderedField α]
    (impl : Implementation α) (norm : MatrixNorm) (n kl ku : Int) (ab : List α)
    (ldab : Int) (work : List α) (hv : Valid norm n kl ku ab ldab work)
    (hq : norm = .Frobenius →
      DlassqContract impl ∧ DcombssqContract impl ∧ SqrtContract impl)
    (hz : ∀ i c, 0 ≤ i → i < n → max 0 (kl - i) ≤ c → c < min (n + kl - i) (kl + 1 + ku) →
      elemAt ab (i * ldab + c) = 0) :
    ∃ w, Dlangb impl norm n kl ku ab ldab work = .ok (0, w) := by
  obtain ⟨h1, h2, h3, h4, h5, h6, h7⟩ := id hv
  rcases eq_or_lt_of_le h2 with hn | hn
  · subst hn
    exact ⟨work, Dlangb_n_zero impl norm kl ku ab ldab work h1 h3 h4 h5⟩
  · rcases h1 with h | h | h | h <;> subst h
    · obtain ⟨v, hv', _, i, c, hi0, hin, hl, hu, hvv⟩ :=
        caseMaxAbs_spec n kl ku ab ldab hn h3 h4 h5 h6
      rw [hz i c hi0 hin hl hu, abs_zero] at hvv
      subst hvv
      exact ⟨work, Dlangb_map_ok impl _ n kl ku ab ldab work 0 _ hv hn rfl hv'⟩
    · obtain ⟨v, hv', _, i, hi0, hin, hvv⟩ := caseMaxRowSum_spec n kl ku ab ldab hn h3 h4 h5 h6
      rw [rowSum_zero n kl ku ab ldab i hi0 hin hz] at hvv
      subst hvv
      exact ⟨work, Dlangb_map_ok impl _ n kl ku ab ldab work 0 _ hv hn rfl hv'⟩
    · obtain ⟨w, hw, hl', hget⟩ :=
        caseMaxColumnSum_spec n kl ku ab ldab work hn h3 h4 h5 h6 (h7 rfl)
      obtain ⟨_, j, hj0, hjn, g2⟩ := maxColumnSum_value n kl ku ab ldab w hn hl' hget
      rw [colSum_zero n kl ku ab ldab j hj0 hjn hz] at g2
      refine ⟨w ++ work.drop n.toNat, ?_⟩
      rw [Dlangb_of_valid impl _ n kl ku ab ldab work hv hn, ← g2]
      exact hw
    · obtain ⟨c1, c2, c3⟩ := hq rfl
      obtain ⟨v, hv', _, hvs⟩ := caseFrobenius_spec impl n kl ku ab ldab h3 h4 h5 h6 c1 c2 c3
      rw [bandSumSq_zero n kl ku ab ldab hz] at hvs
      have e : v = 0 := pow_eq_zero_iff (by norm_num) |>.mp hvs
      subst e
      exact ⟨work, Dlangb_map_ok impl _ n kl ku ab ldab work 0 _ hv hn rfl hv'⟩

/-- A concrete instance of C18 over the reals: a zero tridiagonal band with
non-zero padding, Frobenius norm. -/
theorem C18_zero_matrix_witness :
    ∃ w, Dlangb (refImpl Real.sqrt) .Frobenius 3 1 1
      ([99, 0, 0, 0, 0, 0, 0, 0, 77] : List ℝ) 3 [] = .ok (0, w) :=
  C18_zero_matrix (refImpl Real.sqrt) .Frobenius 3 1 1 _ 3 [] (by decide)
    (fun _ => ⟨refDlassq_contract _, refDcombssq_contract _, realSqrt_contract⟩)
    (by
      intro i c h1 h2 h3 h4
      have hi : i = 0 ∨ i = 1 ∨ i = 2 := by omega
      rcases hi with rfl | rfl | rfl
      · have hc : c = 1 ∨ c = 2 := by
          simp only [sub_zero] at h3 h4
          omega
        rcases hc with rfl | rfl <;> rfl
      · have hc : c = 0 ∨ c = 1 ∨ c = 2 := by omega
        rcases hc with rfl | rfl | rfl <;> rfl
      · have hc : c = 0 ∨ c = 1 := by omega
        rcases hc with rfl | rfl <;> rfl)

/-- C19. Tridiagonal scenario: for `n = 3`, `kl = ku = 1`, `ldab = 3` and
`ab = [p, 2, -1, -1, 2, -1, -1, 2, q]` with arbitrary padding `p`, `q` in an
ordered field, `Dlangb` returns `2` for `MaxAbs`, `4` for `MaxRowSum`, `4` for
`MaxColumnSum` (with any `work` of length at least `3`) and, with `Dlassq`,
`Dcombssq` and `math.Sqrt` satisfying their contracts (in particular over the
reals), `4` for `Frobenius`. -/
theorem C19_tridiagonal_scenario {α : Type} [LinearOrderedField α]
    (impl : Implementation α) (p q : α) (work : List α) :
    Dlangb impl .MaxAbs 3 1 1 [p, 2, -1, -1, 2, -1, -1, 2, q] 3 work = .ok (2, work) ∧
    Dlangb impl .MaxRowSum 3 1 1 [p, 2, -1, -1, 2, -1, -1, 2, q] 3 work = .ok (4, work) ∧
    (3 ≤ work.length →
      ∃ w, Dlangb impl .MaxColumnSum 3 1 1 [p, 2, -1, -1, 2, -1, -1, 2, q] 3 work = .ok (4, w)) ∧
    (DlassqContract impl → DcombssqContract impl → SqrtContract impl →
      Dlangb impl .Frobenius 3 1 1 [p, 2, -1, -1, 2, -1, -1, 2, q] 3 work = .ok (4, work)) := by
  have hval : ∀ norm : MatrixNorm,
      (norm = .MaxAbs ∨ norm = .MaxRowSum ∨ norm = .MaxColumnSum ∨ norm = .Frobenius) →
      (norm = .MaxColumnSum → (3 : Int) ≤ (work.length : Int)) →
      Valid norm 3 1 1 [p, 2, -1, -1, 2, -1, -1, 2, q] 3 work :=
    fun norm h1 h2 => ⟨h1, by decide, by decide, by decide, by decide, by simp, h2⟩
  refine ⟨?_, ?_, ?_, ?_⟩
  · refine Dlangb_map_ok impl _ 3 1 1 _ 3 work 2 _
      (hval _ (Or.inl rfl) (fun h => by cases h)) (by decide) ?_ (tridiag_maxAbs p q)
    rfl
  · refine Dlangb_map_ok impl _ 3 1 1 _ 3 work 4 _
      (hval _ (Or.inr (Or.inl rfl)) (fun h => by cases h)) (by decide) ?_
      (tridiag_maxRowSum p q)
    rfl
  · intro hw
    have hw' : (3 : Int) ≤ (work.length : Int) := by omega
    obtain ⟨w, h⟩ := tridiag_maxColumnSum p q work hw'
    refine ⟨w, ?_⟩
    rw [Dlangb_of_valid impl _ 3 1 1 _ 3 work
      (hval _ (Or.inr (Or.inr (Or.inl rfl))) (fun _ => hw')) (by decide)]
    exact h
  · intro hq hc hs
    refine Dlangb_map_ok impl _ 3 1 1 _ 3 work 4 _
      (hval _ (Or.inr (Or.inr (Or.inr rfl))) (fun h => by cases h)) (by decide) ?_
      (tridiag_frobenius impl p q hq hc hs)
    rfl

/-- A concrete instance of C19 over the reals: the Frobenius norm of the
tridiagonal matrix, with the reference primitives and the real square root. -/
theorem C19_tridiagonal_scenario_witness :
    Dlangb (refImpl Real.sqrt) .Frobenius 3 1 1
      ([99, 2, -1, -1, 2, -1, -1, 2, 77] : List ℝ) 3 [] = .ok (4, []) :=
  (C19_tridiagonal_scenario (refImpl Real.sqrt) (99 : ℝ) 77 []).2.2.2
    (refDlassq_contract _) (refDcombssq_contract _) realSqrt_contract

/-- C20. The `1×1` scenario: for `n = 1`, `kl = ku = 0`, `ldab ≥ 1`, `ab = [x]` with
`x` in an ordered field, and any `work` of length at least `1`, `Dlangb` returns
`|x|` for each of `MaxAbs`, `MaxRowSum`, `MaxColumnSum` and `Frobenius` (the last
with `Dlassq`, `Dcombssq` and `math.Sqrt` satisfying their contracts, in
particular over the reals); in particular all four return `5` for `x = 5`. -/
theorem C20_single_entry_scenario {α : Type} [LinearOrderedField α]
    (impl : Implementation α) (x : α) (ldab : Int) (work : List α) (hld : 1 ≤ ldab)
    (hw : 1 ≤ work.length) (hq : DlassqContract impl) (hc : DcombssqContract impl)
    (hs : SqrtContract impl) :
    (∀ norm : MatrixNorm,
      norm = .MaxAbs ∨ norm = .MaxRowSum ∨ norm = .MaxColumnSum ∨ norm = .Frobenius →
      ∃ w, Dlangb impl norm 1 0 0 [x] ldab work = .ok (|x|, w)) ∧
    (∀ norm : MatrixNorm,
      norm = .MaxAbs ∨ norm = .MaxRowSum ∨ norm = .MaxColumnSum ∨ norm = .Frobenius →
      ∃ w, Dlangb impl norm 1 0 0 [5] ldab work = .ok (5, w)) := by
  have hw' : (1 : Int) ≤ (work.length : Int) := by omega
  have key : ∀ (y : α) (norm : MatrixNorm),
      norm = .MaxAbs ∨ norm = .MaxRowSum ∨ norm = .MaxColumnSum ∨ norm = .Frobenius →
      ∃ w, Dlangb impl norm 1 0 0 [y] ldab work = .ok (|y|, w) := by
    intro y norm hnorm
    have hval : Valid norm 1 0 0 [y] ldab work :=
      ⟨hnorm, by decide, by decide, by decide, by omega, by simp, fun _ => hw'⟩
    rcases hnorm with h | h | h | h <;> subst h
    · refine ⟨work, Dlangb_map_ok impl _ 1 0 0 _ ldab work |y| _ hval (by decide) ?_
        (single_maxAbs y ldab hld)⟩
      rfl
    · refine ⟨work, Dlangb_map_ok impl _ 1 0 0 _ ldab work |y| _ hval (by decide) ?_
        (single_maxRowSum y ldab hld)⟩
      rfl
    · obtain ⟨w, h⟩ := single_maxColumnSum y ldab work hld hw'
      refine ⟨w, ?_⟩
      rw [Dlangb_of_valid impl _ 1 0 0 _ ldab work hval (by decide)]
      exact h
    · refine ⟨work, Dlangb_map_ok impl _ 1 0 0 _ ldab work |y| _ hval (by decide) ?_
        (single_frobenius impl y ldab hld hq hc hs)⟩
      rfl
  refine ⟨key x, ?_⟩
  intro norm hnorm
  have h5 : |(5 : α)| = 5 := abs_of_nonneg (by norm_num)
  have := key 5 norm hnorm
  rwa [h5] at this

/-- A concrete instance of C20 over the reals: the single entry `5`. -/
theorem C20_single_entry_scenario_witness :
    ∃ w, Dlangb (refImpl Real.sqrt) .Frobenius 1 0 0 ([5] : List ℝ) 1 [0] = .ok (5, w) :=
  (C20_single_entry_scenario (refImpl Real.sqrt) (5 : ℝ) 1 [0] (by decide) (by decide)
    (refDlassq_contract _) (refDcombssq_contract _) realSqrt_contract).2 .Frobenius
    (Or.inr (Or.inr (Or.inr rfl)))

/-- C11. Frame: for every call of `Dlangb` on the two buffers that returns, the
band buffer `ab` is unchanged; when the norm is `MaxAbs`, `MaxRowSum` or
`Frobenius` the workspace is unchanged; when it is `MaxColumnSum` the workspace
keeps its length and every element `work[k]` with `k ≥ n` is unchanged; and the
value and the final workspace are those computed by `Dlangb` on the initial
contents of the buffers. -/
theorem C11_frame {F : Type} [FloatOps F] (impl : Implementation F) (norm : MatrixNorm)
    (n kl ku : Int) (ldab : Int) (m m' : Buffers F) (v : F)
    (h : DlangbMem impl norm n kl ku ldab m = .ok (v, m')) :
    m'.ab = m.ab ∧
    (norm = .MaxAbs ∨ norm = .MaxRowSum ∨ norm = .Frobenius → m'.work = m.work) ∧
    (norm = .MaxColumnSum →
      m'.work.length = m.work.length ∧
      ∀ k : Nat, n ≤ (k : Int) → m'.work[k]? = m.work[k]?) ∧
    Dlangb impl norm n kl ku m.ab ldab m.work = .ok (v, m'.work) := by
  rw [DlangbMem_eq] at h
  cases hd : Dlangb impl norm n kl ku m.ab ldab m.work with
  | error e =>
    rw [hd] at h
    cases h
  | ok r =>
    rw [hd] at h
    have hp := Except.ok.inj h
    have hv : r.1 = v := congrArg Prod.fst hp
    have hm : (⟨m.ab, r.2⟩ : Buffers F) = m' := congrArg Prod.snd hp
    subst hv
    subst hm
    obtain ⟨f1, f2⟩ := Dlangb_work_frame impl norm n kl ku m.ab ldab m.work r.1 r.2 hd
    exact ⟨rfl, f1, f2, rfl⟩

/-- A concrete instance of C11: a `MaxColumnSum` call with a workspace longer
than `n` returns, leaves `ab` as it was and keeps the last element of `work`. -/
theorem C11_frame_witness :
    ∃ v m', DlangbMem (refImpl id) .MaxColumnSum 3 1 1 3
        ⟨([99, 2, -1, -1, 2, -1, -1, 2, 77] : List ℚ), [5, 5, 5, 8]⟩ = .ok (v, m') ∧
      m'.ab = [99, 2, -1, -1, 2, -1, -1, 2, 77] ∧ m'.work.length = 4 ∧
      m'.work[3]? = some 8 := by
  obtain ⟨r, hr⟩ := Dlangb_ok_of_valid (refImpl id) .MaxColumnSum 3 1 1
    ([99, 2, -1, -1, 2, -1, -1, 2, 77] : List ℚ) 3 [5, 5, 5, 8] (by decide)
    (fun h => by cases h)
  have h : DlangbMem (refImpl id) .MaxColumnSum 3 1 1 3
      ⟨([99, 2, -1, -1, 2, -1, -1, 2, 77] : List ℚ), [5, 5, 5, 8]⟩ =
      .ok (r.1, ⟨[99, 2, -1, -1, 2, -1, -1, 2, 77], r.2⟩) := by
    rw [DlangbMem_eq]
    show Except.map _ (Dlangb _ _ _ _ _ _ _ _) = _
    rw [hr]
    rfl
  obtain ⟨f1, _, f3, _⟩ := C11_frame (refImpl id) .MaxColumnSum 3 1 1 3 _ _ _ h
  exact ⟨_, _, h, f1, (f3 rfl).1, (f3 rfl).2 3 (by decide)⟩

end Gonum
